import Mathlib

/-!
Verification of the metaphite routing/merging Graphite proxy.

The Go sources are shallowly embedded: strings are modelled as `List Char`
(written `Str`), in-place mutation through `*Metric` handles is modelled as
functional replacement at the handle's position in walk order, and the
concurrent dispatcher is modelled as an explicit bounded-channel trace
semantics.  Each definition is translated from the corresponding Go
function, keeping its name where possible.
-/

namespace Metaphite

/-- Strings of the Go program, modelled as lists of characters. -/
abbrev Str := List Char

/-! ## package query: the AST (`Expr`, `Query`, `Metric`, `Value`, `Func`) -/

/-- The `Expr` interface of package query: a graphite query subexpression.
`Func`, `Metric`, `Value` and `*Query` all implement it. -/
inductive Expr where
  | func (name : Str) (args : List Expr)
  | metric (m : Str)
  | value (v : Str)
  | query (e : Expr)

/-- A `Query` is a parsed graphite target query wrapping a single `Expr`. -/
structure Query where
  expr : Expr

mutual
/-- The `equal` methods of the AST types: `Func.equal` compares name and
arguments pointwise, `Metric.equal` and `Value.equal` compare the strings,
`Query.equal` unwraps and compares the inner expressions; expressions of
different kinds are unequal. -/
def Expr.equal : Expr → Expr → Bool
  | .func n₁ a₁, .func n₂ a₂ => n₁ == n₂ && Expr.equalArgs a₁ a₂
  | .metric m₁, .metric m₂ => m₁ == m₂
  | .value v₁, .value v₂ => v₁ == v₂
  | .query e₁, .query e₂ => e₁.equal e₂
  | _, _ => false

/-- The length check and pointwise loop of `Func.equal`. -/
def Expr.equalArgs : List Expr → List Expr → Bool
  | [], [] => true
  | x :: xs, y :: ys => x.equal y && Expr.equalArgs xs ys
  | _, _ => false
end

/-- `Query.equal` unwraps both queries and compares the expressions. -/
def Query.equal (x y : Query) : Bool := x.expr.equal y.expr

mutual
def Expr.decEq : (a b : Expr) → Decidable (a = b)
  | .func n1 a1, .func n2 a2 =>
      if h1 : n1 = n2 then
        match Expr.decEqArgs a1 a2 with
        | isTrue h2 => isTrue (by rw [h1, h2])
        | isFalse h2 => isFalse fun hc => by injection hc with _ ha; exact h2 ha
      else isFalse fun hc => by injection hc with hn _; exact h1 hn
  | .metric m1, .metric m2 =>
      if h : m1 = m2 then isTrue (by rw [h]) else isFalse fun hc => by
        injection hc with hm; exact h hm
  | .value v1, .value v2 =>
      if h : v1 = v2 then isTrue (by rw [h]) else isFalse fun hc => by
        injection hc with hv; exact h hv
  | .query e1, .query e2 =>
      match Expr.decEq e1 e2 with
      | isTrue h => isTrue (by rw [h])
      | isFalse h => isFalse fun hc => by injection hc with he; exact h he
  | .func _ _, .metric _ => isFalse fun h => nomatch h
  | .func _ _, .value _ => isFalse fun h => nomatch h
  | .func _ _, .query _ => isFalse fun h => nomatch h
  | .metric _, .func _ _ => isFalse fun h => nomatch h
  | .metric _, .value _ => isFalse fun h => nomatch h
  | .metric _, .query _ => isFalse fun h => nomatch h
  | .value _, .func _ _ => isFalse fun h => nomatch h
  | .value _, .metric _ => isFalse fun h => nomatch h
  | .value _, .query _ => isFalse fun h => nomatch h
  | .query _, .func _ _ => isFalse fun h => nomatch h
  | .query _, .metric _ => isFalse fun h => nomatch h
  | .query _, .value _ => isFalse fun h => nomatch h

def Expr.decEqArgs : (as bs : List Expr) → Decidable (as = bs)
  | [], [] => isTrue rfl
  | a :: as, b :: bs =>
      match Expr.decEq a b with
      | isTrue h1 =>
          match Expr.decEqArgs as bs with
          | isTrue h2 => isTrue (by rw [h1, h2])
          | isFalse h2 => isFalse fun hc => by injection hc with _ ht; exact h2 ht
      | isFalse h1 => isFalse fun hc => by injection hc with hh _; exact h1 hh
  | [], _ :: _ => isFalse fun h => nomatch h
  | _ :: _, [] => isFalse fun h => nomatch h
end

instance : DecidableEq Expr := Expr.decEq

instance : DecidableEq Query := fun x y =>
  decidable_of_iff (x.expr = y.expr)
    ⟨fun h => by cases x; cases y; cases h; rfl, fun h => by rw [h]⟩

instance {ε α : Type} [DecidableEq ε] [DecidableEq α] : DecidableEq (Except ε α) :=
  fun a b =>
    match a, b with
    | .ok x, .ok y =>
        if h : x = y then isTrue (by rw [h])
        else isFalse fun hc => by injection hc with h2; exact h h2
    | .error x, .error y =>
        if h : x = y then isTrue (by rw [h])
        else isFalse fun hc => by injection hc with h2; exact h h2
    | .ok _, .error _ => isFalse fun h => nomatch h
    | .error _, .ok _ => isFalse fun h => nomatch h

mutual
theorem Expr.equal_refl : ∀ (a : Expr), Expr.equal a a = true
  | .func n args => by simp [Expr.equal, Expr.equalArgs_refl args]
  | .metric m => by simp [Expr.equal]
  | .value v => by simp [Expr.equal]
  | .query e => by simpa [Expr.equal] using Expr.equal_refl e

theorem Expr.equalArgs_refl : ∀ (as : List Expr), Expr.equalArgs as as = true
  | [] => by simp [Expr.equalArgs]
  | a :: rest => by
      simp [Expr.equalArgs, Expr.equal_refl a, Expr.equalArgs_refl rest]
end

/-- `Metric.Split` splits immediately following the first dot; when the
metric has no dot, `first` is the whole metric and `rest` is empty. -/
def msplit (m : Str) : Str × Str :=
  if '.' ∈ m then (m.takeWhile (· ≠ '.'), (m.dropWhile (· ≠ '.')).tail)
  else (m, [])

/-! ## Metric.braceExpand

The Go loop scans for a brace-delimited list.  `scanBraceOut` is the scan
while `inbrace` is false, `scanBraceIn` while it is true; `none` models the
`return nil` cases (nested or unterminated braces). -/

/-- Scan inside a brace list: `pre` is the text before the opening brace,
`segs` the alternatives collected so far, `cur` the current alternative.
A nested `{` or running out of input yields `none` (Go returns nil). -/
def scanBraceIn (pre : Str) (segs : List Str) (cur : Str) : Str → Option (List Str × Str)
  | [] => none
  | c :: cs =>
    if c = '\\' then
      match cs with
      | [] => none
      | c2 :: cs2 => scanBraceIn pre segs (cur ++ [c, c2]) cs2
    else if c = '{' then none
    else if c = ',' then scanBraceIn pre (segs ++ [pre ++ cur]) [] cs
    else if c = '}' then some (segs ++ [pre ++ cur], cs)
    else scanBraceIn pre segs (cur ++ [c]) cs

/-- Scan outside a brace list: `pre` is the text consumed so far.  A bare
`}` closes with a single segment, as in the Go switch. -/
def scanBraceOut (pre : Str) : Str → Option (List Str × Str)
  | [] => some ([], [])
  | c :: cs =>
    if c = '\\' then
      match cs with
      | [] => some ([], [])
      | c2 :: cs2 => scanBraceOut (pre ++ [c, c2]) cs2
    else if c = '{' then scanBraceIn pre [] [] cs
    else if c = '}' then some ([pre], cs)
    else scanBraceOut (pre ++ [c]) cs

theorem scanBraceIn_suffix_lt : ∀ (n : Nat) (rest : Str), rest.length ≤ n →
    ∀ (pre : Str) (segs : List Str) (cur : Str) segs' suffix,
      scanBraceIn pre segs cur rest = some (segs', suffix) →
      suffix.length < rest.length := by
  intro n
  induction n with
  | zero =>
      intro rest hle pre segs cur s t h
      match rest with
      | [] => simp [scanBraceIn] at h
  | succ n ih =>
      intro rest hle pre segs cur s t h
      match rest with
      | [] => simp [scanBraceIn] at h
      | c :: cs =>
          rw [scanBraceIn.eq_def] at h
          dsimp only at h
          simp only [List.length_cons] at hle ⊢
          split at h
          · match cs with
            | [] => simp at h
            | c2 :: cs2 =>
                have := ih cs2 (by simp at hle ⊢; omega) _ _ _ _ _ h
                simp only [List.length_cons] at hle ⊢
                omega
          · split at h
            · exact absurd h (by simp)
            · split at h
              · have := ih cs (by omega) _ _ _ _ _ h
                omega
              · split at h
                · obtain ⟨-, rfl⟩ := Prod.mk.injEq .. ▸ Option.some.injEq .. ▸ h
                  omega
                · have := ih cs (by omega) _ _ _ _ _ h
                  omega

theorem scanBraceOut_suffix_lt : ∀ (n : Nat) (rest : Str), rest.length ≤ n →
    ∀ (pre : Str) (seg : Str) (segs' : List Str) (suffix : Str),
      scanBraceOut pre rest = some (seg :: segs', suffix) →
      suffix.length < rest.length := by
  intro n
  induction n with
  | zero =>
      intro rest hle pre a b t h
      match rest with
      | [] => simp [scanBraceOut] at h
  | succ n ih =>
      intro rest hle pre a b t h
      match rest with
      | [] => simp [scanBraceOut] at h
      | c :: cs =>
          rw [scanBraceOut.eq_def] at h
          dsimp only at h
          simp only [List.length_cons] at hle ⊢
          split at h
          · match cs with
            | [] => simp at h
            | c2 :: cs2 =>
                have := ih cs2 (by simp at hle ⊢; omega) _ _ _ _ h
                simp only [List.length_cons] at hle ⊢
                omega
          · split at h
            · have := scanBraceIn_suffix_lt cs.length cs le_rfl _ _ _ _ _ h
              omega
            · split at h
              · obtain ⟨-, rfl⟩ := Prod.mk.injEq .. ▸ Option.some.injEq .. ▸ h
                omega
              · have := ih cs (by omega) _ _ _ _ h
                omega

/-- `Metric.braceExpand`: expands all brace-delimited lists in a metric.
Guards in source order: empty metric returns `addto` unchanged, an empty
`addto` seeds one empty accumulator, and `depth > 100` (`maxPatterns`)
skips the scan (`goto done`), appending the remaining text unexpanded. -/
def braceExpand (m : Str) (depth : Nat) (addto : List Str) : List Str :=
  if m = [] then addto
  else
    let addto' := if addto = [] then [([] : Str)] else addto
    if depth > 100 then addto'.map (· ++ m)
    else
      match h : scanBraceOut [] m with
      | none => []
      | some ([], _) => addto'.map (· ++ m)
      | some (seg :: segs, suffix) =>
          braceExpand suffix (depth + 1)
            (addto'.flatMap fun pfx => (seg :: segs).map (pfx ++ ·))
termination_by m.length
decreasing_by
  exact scanBraceOut_suffix_lt m.length m le_rfl [] seg segs suffix h

/-- `Metric.Expand` expands every brace list, or returns the single
original metric when none is present. -/
def mexpand (m : Str) : List Str := braceExpand m 0 []

/-! ## marshalExpr and Query.String -/

mutual
/-- `marshalExpr`: serialises an expression, giving up below the depth
guard (`maxDepth = 200`).  Arguments are joined with a comma and space. -/
def marshalExpr : Expr → Nat → Str
  | e, depth =>
    if depth > 200 then []
    else
      match e with
      | .query e => marshalExpr e (depth + 1)
      | .func name args => name ++ '(' :: marshalArgs args (depth + 1) ++ [')']
      | .value v => v
      | .metric m => m

/-- The argument loop of `marshalExpr`: `", "` between consecutive args. -/
def marshalArgs : List Expr → Nat → Str
  | [], _ => []
  | [a], depth => marshalExpr a depth
  | a :: b :: rest, depth => marshalExpr a depth ++ ',' :: ' ' :: marshalArgs (b :: rest) depth
end

/-- `Query.String`: `marshalExpr(&buf, q, 0)` on the `*Query` itself, so
the inner expression is serialised at depth 1. -/
def Query.render (q : Query) : Str := marshalExpr (.query q.expr) 0

/-! ## walk, Query.Metrics, and handle mutation -/

mutual
/-- The metric names visited by `walk` (depth guard 200), in visit order:
this is the sequence of handles `Query.Metrics` returns. -/
def metricsExpr : Expr → Nat → List Str
  | e, depth =>
    if depth > 200 then []
    else
      match e with
      | .func _ args => metricsArgs args (depth + 1)
      | .query e => metricsExpr e (depth + 1)
      | .value _ => []
      | .metric m => [m]

/-- Argument loop of `walk` for metric collection. -/
def metricsArgs : List Expr → Nat → List Str
  | [], _ => []
  | a :: rest, depth => metricsExpr a depth ++ metricsArgs rest depth
end

/-- `Query.Metrics`: `walk` starts on the inner expression at depth 0. -/
def Query.metrics (q : Query) : List Str := metricsExpr q.expr 0

mutual
/-- Assignment through the `i`-th metric handle (walk order): the counter
is `some k` while `k` handles remain to be skipped, `none` once the
assignment has happened.  Nodes beyond the walk depth guard have no handle
and are left untouched. -/
def setExpr : Expr → Nat → Option Nat → Str → Expr × Option Nat
  | e, depth, cnt, v =>
    if depth > 200 then (e, cnt)
    else
      match e with
      | .metric m =>
          match cnt with
          | some 0 => (.metric v, none)
          | some (k + 1) => (.metric m, some k)
          | none => (.metric m, none)
      | .func n args =>
          let r := setArgs args (depth + 1) cnt v
          (.func n r.1, r.2)
      | .query e =>
          let r := setExpr e (depth + 1) cnt v
          (.query r.1, r.2)
      | .value w => (.value w, cnt)

/-- Argument loop for handle assignment, threading the counter. -/
def setArgs : List Expr → Nat → Option Nat → Str → List Expr × Option Nat
  | [], _, cnt, _ => ([], cnt)
  | a :: rest, depth, cnt, v =>
      let r := setExpr a depth cnt v
      let r' := setArgs rest depth r.2 v
      (r.1 :: r'.1, r'.2)
end

/-- Assign `v` through the `i`-th handle of `q.Metrics()`. -/
def Query.setMetric (q : Query) (i : Nat) (v : Str) : Query :=
  ⟨(setExpr q.expr 0 (some i) v).1⟩

mutual
/-- Nesting height of an expression: how much deeper than its own node
the walk and the marshaller recurse below it. -/
def exprHeight : Expr → Nat
  | .metric _ => 0
  | .value _ => 0
  | .query e => exprHeight e + 1
  | .func _ args => argsHeight args + 1

/-- Height of an argument list: the maximum height of its members. -/
def argsHeight : List Expr → Nat
  | [] => 0
  | a :: rest => max (exprHeight a) (argsHeight rest)
end

mutual
/-- The spec's reading of `Metrics()`: the Metric nodes of the tree in
depth-first traversal order, with no depth guard. -/
def dfsMetrics : Expr → List Str
  | .metric m => [m]
  | .value _ => []
  | .query e => dfsMetrics e
  | .func _ args => dfsArgs args

/-- Depth-first metric nodes of an argument list, left to right. -/
def dfsArgs : List Expr → List Str
  | [] => []
  | a :: rest => dfsMetrics a ++ dfsArgs rest
end

/-- A chain of `n` single-argument function calls around one metric. -/
def nestFunc : Nat → Expr
  | 0 => .metric ['m']
  | n + 1 => .func ['f'] [nestFunc n]

mutual
/-- `stripPrefix` of package backend: for every handle of `q.Metrics()`,
`_, *metric = metric.Split()` replaces the metric with the part after the
first dot. -/
def stripExpr : Expr → Nat → Expr
  | e, depth =>
    if depth > 200 then e
    else
      match e with
      | .metric m => .metric (msplit m).2
      | .func n args => .func n (stripArgs args (depth + 1))
      | .query e => .query (stripExpr e (depth + 1))
      | .value v => .value v

/-- Argument loop of the prefix strip. -/
def stripArgs : List Expr → Nat → List Expr
  | [], _ => []
  | a :: rest, depth => stripExpr a depth :: stripArgs rest depth
end

/-- backend `stripPrefix` applied to a whole query. -/
def stripPrefixQ (q : Query) : Query := ⟨stripExpr q.expr 0⟩

/-! ## Response merging (package backend, `Mux.metrics` / `Mux.render`) -/

/-- One element of the JSON array answered by `/metrics/find`. -/
structure MetricNode where
  leaf : Nat
  name : Str
  path : Str
deriving DecidableEq

/-- One element of the JSON array answered by `/render`; datapoints are an
opaque JSON fragment. -/
structure RenderTarget where
  target : Str
  datapoints : Str
deriving DecidableEq

/-- A backend HTTP response: its status code and the decoded JSON body
(`none` when `decodeJSON` fails on it). -/
structure Resp (α : Type) where
  status : Nat
  chunk : Option (List α)
deriving DecidableEq

/-- The `response` struct sent over the dispatcher channel: the proxy
error, the server's name, and the `*http.Response` (`none` when nil). -/
structure RespItem (α : Type) where
  err : Bool
  name : Str
  resp : Option (Resp α)
deriving DecidableEq

/-- What `Mux.metrics` / `Mux.render` write to the client after draining
the channel. -/
inductive MergeOutcome (α : Type) where
  | body (chunks : List α)
  | forward (r : Resp α)
  | unavailable
deriving DecidableEq

/-- The channel-drain loop shared by the `/metrics` and `/render`
handlers: skip transport errors, non-200 statuses and undecodable bodies;
otherwise rewrite each element with `prepend` applied to the server name
and append the chunk to the result. -/
def mergeLoop {α : Type} (prepend : Str → α → α) : List (RespItem α) → List α
  | [] => []
  | it :: rest =>
      if it.err then mergeLoop prepend rest
      else
        match it.resp with
        | none => mergeLoop prepend rest
        | some r =>
          if r.status ≠ 200 then mergeLoop prepend rest
          else
            match r.chunk with
            | none => mergeLoop prepend rest
            | some chunk => chunk.map (prepend it.name) ++ mergeLoop prepend rest

/-- After the loop: a non-empty result is encoded; otherwise, if the last
channel item carried a response object it is written verbatim; otherwise
503.  An empty channel leaves the zero-valued `response`, hence 503. -/
def mergeOutcome {α : Type} (prepend : Str → α → α) (items : List (RespItem α)) :
    MergeOutcome α :=
  let result := mergeLoop prepend items
  if result.length > 0 then .body result
  else
    match items.getLast? with
    | some it =>
        match it.resp with
        | some r => .forward r
        | none => .unavailable
    | none => .unavailable

/-- `Mux.metrics` rewrites each node path to `server.name + "." + path`. -/
def prependNode (srv : Str) (v : MetricNode) : MetricNode :=
  { v with path := srv ++ '.' :: v.path }

/-- `Mux.render` rewrites each target to `server.name + "." + target`. -/
def prependTarget (srv : Str) (v : RenderTarget) : RenderTarget :=
  { v with target := srv ++ '.' :: v.target }

/-! ## The dispatcher (`Mux.proxyMetrics`, package multi `Proxy`)

One goroutine is launched per server and each sends exactly one value on
the response channel, which is created with capacity `len(servers)`.  A
buffered channel is modelled by the count of buffered items along a trace
of events (`true` = some worker's send, `false` = a consumer receive); a
send blocks exactly when the buffer is full. -/

/-- The dispatch structure of `Mux.proxyMetrics`: channel capacity and the
number of worker tasks, both `len(servers)`; each worker performs exactly
one send. -/
structure Dispatch where
  capacity : Nat
  workers : Nat
  sendsPerWorker : Nat

/-- `responses := make(chan response, len(servers))` and one goroutine per
server in the range loop. -/
def proxyMetricsDispatch (servers : List Str) : Dispatch :=
  { capacity := servers.length, workers := servers.length, sendsPerWorker := 1 }

/-- Buffered items after a trace prefix: sends add one, receives take one
(never below zero). -/
def chanBuffered (trace : List Bool) : Nat :=
  trace.foldl (fun b ev => if ev then b + 1 else b - 1) 0

/-! ## Config.render routing loop (config/render.go)

For one parsed query the loop splits each metric handle, compares the
candidate against the running prefix, warns and breaks on a mismatch, and
otherwise strips the handle in place.  `renderRouteLoop prefix ms` returns
the final prefix, the metric list after mutation, and whether the
mismatch warning was logged. -/

def renderRouteLoop (pfx : Str) : List Str → Str × List Str × Bool
  | [] => (pfx, [], false)
  | m :: rest =>
      let s := msplit m
      if pfx ≠ s.1 ∧ pfx ≠ [] then (pfx, m :: rest, true)
      else
        let r := renderRouteLoop s.1 rest
        (r.1, s.2 :: r.2.1, r.2.2)

/-- The loop of `Config.render` over `q.Metrics()` starts with the empty
prefix. -/
def renderRoute (ms : List Str) : Str × List Str × Bool := renderRouteLoop [] ms

/-! ## Target.CopyRequest (package multi)

`*cp = *req` copies the request struct, so `cp.URL` and `req.URL` are the
same `*url.URL`; the subsequent field writes go through that shared
pointer.  The model returns the post-call URL once; both the copy and the
original request refer to it. -/

/-- The fields of `*url.URL` that `CopyRequest` reads or writes. -/
structure URL where
  scheme : Str
  host : Str
  path : Str
  rawQuery : Str
deriving DecidableEq

/-- A `Target` is a tuple of a backend name and URL. -/
structure Target where
  name : Str
  url : URL
deriving DecidableEq

/-- A request, reduced to the URL object it points at. -/
structure Request where
  url : URL
deriving DecidableEq

/-- Go `path.Clean` element backtracking for a `..`: `out.w--`, then move
`w` down while the byte at `w` is not a slash and `w > dotdot`; the
buffer is truncated to `w`. -/
def cleanBackW (out : Str) (dotdot : Nat) : Nat → Nat
  | 0 => 0
  | w + 1 => if w + 1 > dotdot ∧ out.get? (w + 1) ≠ some '/' then cleanBackW out dotdot w else w + 1

theorem dropWhile_length_le (p : Char → Bool) (l : List Char) :
    (l.dropWhile p).length ≤ l.length := by
  induction l with
  | nil => simp
  | cons a as ih => by_cases h : p a <;> simp [List.dropWhile_cons, h] <;> omega

/-- The scanning loop of Go `path.Clean`: `out` is the written buffer,
`dotdot` the index where `..` backtracking must stop.  In the default
branch the element (which starts with a non-slash byte) is copied and the
scan resumes at the next slash. -/
def cleanLoop (rooted : Bool) (dotdot : Nat) (out : Str) (p : Str) : Str :=
  match p with
  | [] => out
  | c :: rest =>
    if c = '/' then cleanLoop rooted dotdot out rest
    else if c = '.' ∧ (rest = [] ∨ rest.head? = some '/') then cleanLoop rooted dotdot out rest
    else if c = '.' ∧ rest.head? = some '.' ∧
        (rest.tail = [] ∨ rest.tail.head? = some '/') then
      if out.length > dotdot then
        cleanLoop rooted dotdot (out.take (cleanBackW out dotdot (out.length - 1))) rest.tail
      else if rooted = false then
        let out' := (if out.length > 0 then out ++ ['/'] else out) ++ ['.', '.']
        cleanLoop rooted out'.length out' rest.tail
      else cleanLoop rooted dotdot out rest.tail
    else
      let out' :=
        if (rooted = true ∧ out.length ≠ 1) ∨ (rooted = false ∧ out.length ≠ 0)
        then out ++ ['/'] else out
      cleanLoop rooted dotdot (out' ++ c :: rest.takeWhile (· ≠ '/'))
        (rest.dropWhile (· ≠ '/'))
termination_by p.length
decreasing_by
  all_goals simp only [List.length_cons, List.length_tail]
  · omega
  · omega
  · omega
  · omega
  · omega
  · exact Nat.lt_succ_of_le (dropWhile_length_le _ _)

/-- Go `path.Clean`. -/
def pathClean (p : Str) : Str :=
  if p = [] then ['.']
  else if p.head? = some '/' then
    let out := cleanLoop true 1 ['/'] p.tail
    if out = [] then ['.'] else out
  else
    let out := cleanLoop false 0 [] p
    if out = [] then ['.'] else out

/-- Go `path.Join` on the two elements `CopyRequest` passes: skip empty
leading elements, join with a slash, and `Clean`. -/
def pathJoin (a b : Str) : Str :=
  if a = [] ∧ b = [] then []
  else if a = [] then pathClean b
  else pathClean (a ++ '/' :: b)

/-- The writes `CopyRequest` performs through the shared `*url.URL`, in
source order: scheme, host, path (joining the target's path with the
request's), then the raw query (joined by `&` exactly when both sides are
non-empty). -/
def copyRequestURL (tgt : Target) (u : URL) : URL :=
  let u1 := { u with scheme := tgt.url.scheme }
  let u2 := { u1 with host := tgt.url.host }
  let u3 := { u2 with path := pathJoin tgt.url.path u2.path }
  { u3 with
    rawQuery :=
      if tgt.url.rawQuery = [] ∨ u3.rawQuery = []
      then tgt.url.rawQuery ++ u3.rawQuery
      else tgt.url.rawQuery ++ '&' :: u3.rawQuery }

/-- `Target.CopyRequest`: the returned pair is (the copy, the original
request as observable after the call).  Because `*cp = *req` copies the
URL pointer, both components hold the same rewritten URL object. -/
def Target.copyRequest (tgt : Target) (req : Request) : Request × Request :=
  (⟨copyRequestURL tgt req.url⟩, ⟨copyRequestURL tgt req.url⟩)

/-! ## The lexer (package query, Rob Pike style scanner)

The scanner is a set of state functions over the input; each token's text
is the slice between `start` and `pos`, carried here as an explicit
accumulator.  Tokens keep the `%token` names of the grammar. -/

def charAlpha : Str := "abcdefghijklmnopqrstuvwxyzABCDEFGHIJKLMNOPQRSTUVWXYZ".toList
def charNumeric : Str := "0123456789".toList
def charIdentifier : Str := charAlpha ++ charNumeric ++ "-_".toList
def charGlob : Str := "[]\x7b\x7d*".toList
def charDelim : Str := "(),".toList
def charQuote : Str := "\"'".toList
def charWhitespace : Str := " \t\r\n\x0b\x0c".toList
def charDot : Str := ".".toList

/-- `is(r, sets...)`: membership of a rune in any of the given sets. -/
def isIn (c : Char) (sets : List Str) : Bool := sets.any fun v => c ∈ v

/-- The token stream items: WORD, NUMBER, STRING, METRIC and the three
delimiter characters. -/
inductive Tok where
  | word (s : Str)
  | number (s : Str)
  | str (s : Str)
  | metric (s : Str)
  | lparen
  | rparen
  | comma
deriving DecidableEq

/-- Delimiter token for a character of `charDelim`. -/
def delimTok (c : Char) : Tok :=
  if c = '(' then .lparen else if c = ')' then .rparen else .comma

/-- Shared loop of `lexCurlyBrace`, `lexSquareBracket` and `lexQuote`:
consume up to and including the first unescaped `close` character;
a backslash escapes one character; running out is an error (`none`). -/
def globConsume (close : Char) : Str → Option (Str × Str)
  | [] => none
  | c :: cs =>
    if c = '\\' then
      match cs with
      | [] => none
      | c2 :: cs2 => (globConsume close cs2).map fun r => (c :: c2 :: r.1, r.2)
    else if c = close then some ([c], cs)
    else (globConsume close cs).map fun r => (c :: r.1, r.2)

theorem globConsume_lt : ∀ (n : Nat) (input : Str), input.length ≤ n →
    ∀ (close : Char) (tk rest : Str),
      globConsume close input = some (tk, rest) → rest.length < input.length := by
  intro n
  induction n with
  | zero =>
      intro input hle close tk rest h
      match input with
      | [] => simp [globConsume] at h
  | succ n ih =>
      intro input hle close tk rest h
      match input with
      | [] => simp [globConsume] at h
      | c :: cs =>
          rw [globConsume.eq_def] at h
          dsimp only at h
          simp only [List.length_cons] at hle ⊢
          split at h
          · match cs with
            | [] => simp at h
            | c2 :: cs2 =>
                simp only [Option.map_eq_some'] at h
                obtain ⟨⟨tk', rest'⟩, hg, heq⟩ := h
                have hrest : rest = rest' := (congrArg Prod.snd heq).symm
                subst hrest
                have := ih cs2 (by simp at hle ⊢; omega) close tk' rest hg
                simp only [List.length_cons] at *
                omega
          · split at h
            · obtain ⟨-, rfl⟩ := Prod.mk.injEq .. ▸ Option.some.injEq .. ▸ h
              omega
            · simp only [Option.map_eq_some'] at h
              obtain ⟨⟨tk', rest'⟩, hg, heq⟩ := h
              have hrest : rest = rest' := (congrArg Prod.snd heq).symm
              subst hrest
              have := ih cs (by omega) close tk' rest hg
              omega

/-- `lexMetric`: a run of identifier characters plus `*` and `.`, with
brace and bracket sections consumed by the sub-scanners; emits METRIC at
whitespace, a delimiter, or end of input. -/
def scanMetric (acc rest : Str) : Except Str (Tok × Str) :=
  let run := rest.takeWhile (isIn · [charIdentifier, "*.".toList])
  let acc' := acc ++ run
  match hr : rest.dropWhile (isIn · [charIdentifier, "*.".toList]) with
  | '\x7b' :: cs =>
      match hg : globConsume '\x7d' cs with
      | none => .error "unterminated brace list".toList
      | some (consumed, rest') => scanMetric (acc' ++ '\x7b' :: consumed) rest'
  | '[' :: cs =>
      match hg : globConsume ']' cs with
      | none => .error "unterminated bracket glob".toList
      | some (consumed, rest') => scanMetric (acc' ++ '[' :: consumed) rest'
  | [] => .ok (.metric acc', [])
  | c :: cs =>
      if isIn c [charWhitespace, charDelim] then .ok (.metric acc', c :: cs)
      else .error "unexpected character in metric".toList
termination_by rest.length
decreasing_by
  · have h1 := dropWhile_length_le (isIn · [charIdentifier, "*.".toList]) rest
    rw [hr] at h1
    have h2 := globConsume_lt cs.length cs le_rfl '\x7d' consumed rest' hg
    simp only [List.length_cons] at h1
    omega
  · have h1 := dropWhile_length_le (isIn · [charIdentifier, "*.".toList]) rest
    rw [hr] at h1
    have h2 := globConsume_lt cs.length cs le_rfl ']' consumed rest' hg
    simp only [List.length_cons] at h1
    omega

/-- `lexName`: a run of identifier characters; emits WORD at whitespace or
a delimiter; a glob or dot character is consumed and scanning falls
through to `lexMetric`; anything else (including end of input) errors. -/
def scanName (rest : Str) : Except Str (Tok × Str) :=
  let run := rest.takeWhile (isIn · [charIdentifier])
  match rest.dropWhile (isIn · [charIdentifier]) with
  | [] => .error "unexpected character in word".toList
  | c :: cs =>
      if isIn c [charWhitespace, charDelim] then .ok (.word run, c :: cs)
      else if isIn c [charGlob, charDot] then scanMetric (run ++ [c]) cs
      else .error "unexpected character in word".toList

/-- The consuming part of `lexNumber`: `accept("+-")`, a digit run, and
optionally a dot followed by a digit run; returns the consumed text and
the remaining input. -/
def numParts (rest : Str) : Str × Str :=
  let sign : Str × Str :=
    match rest with
    | c :: cs => if c = '+' ∨ c = '-' then ([c], cs) else ([], rest)
    | [] => ([], [])
  let ds := sign.2.takeWhile (isIn · [charNumeric])
  let r2 := sign.2.dropWhile (isIn · [charNumeric])
  let frac : Str × Str :=
    match r2 with
    | '.' :: cs => ('.' :: cs.takeWhile (isIn · [charNumeric]), cs.dropWhile (isIn · [charNumeric]))
    | _ => ([], r2)
  (sign.1 ++ ds ++ frac.1, frac.2)

/-- The dispatch part of `lexNumber`: emit NUMBER at whitespace or a
delimiter; fall through to `lexMetric` (without consuming) when an
alphanumeric, glob or dot character follows; anything else (including end
of input) errors. -/
def scanNumberTail (acc r3 : Str) : Except Str (Tok × Str) :=
  match r3 with
  | [] => .error "unexpected character in number".toList
  | c :: cs =>
      if isIn c [charWhitespace, charDelim] then .ok (.number acc, c :: cs)
      else if isIn c [charAlpha ++ charNumeric, charGlob, charDot] then scanMetric acc (c :: cs)
      else .error "unexpected character in number".toList

/-- `lexNumber` is the consuming part followed by the dispatch. -/
def scanNumber (rest : Str) : Except Str (Tok × Str) :=
  scanNumberTail (numParts rest).1 (numParts rest).2

/-- `lexQuote`: the quote character, the escaped body, and the closing
quote are all part of the STRING token's text. -/
def scanQuote (rest : Str) : Except Str (Tok × Str) :=
  match rest with
  | [] => .error "unterminated string".toList
  | q :: cs =>
      match globConsume q cs with
      | none => .error "unterminated string".toList
      | some (consumed, rest') => .ok (.str (q :: consumed), rest')

theorem scanMetric_le : ∀ (n : Nat) (rest : Str), rest.length ≤ n →
    ∀ acc t r', scanMetric acc rest = .ok (t, r') → r'.length ≤ rest.length := by
  intro n
  induction n with
  | zero =>
      intro rest hle acc t r' h
      have h0 : rest = [] := by
        cases rest with
        | nil => rfl
        | cons a as => simp at hle
      subst h0
      simp [scanMetric] at h
      simp [← h.2]
  | succ n ih =>
      intro rest hle acc t r' h
      have hd := dropWhile_length_le (isIn · [charIdentifier, "*.".toList]) rest
      rw [scanMetric.eq_def] at h
      split at h
      · rename_i cs hr
        rw [hr] at hd
        split at h
        · exact absurd h (by simp)
        · rename_i consumed rest'' hg
          have h1 := globConsume_lt cs.length cs le_rfl '\x7d' consumed rest'' hg
          have h2 := ih rest'' (by simp only [List.length_cons] at hd; omega) _ _ _ h
          simp only [List.length_cons] at hd
          omega
      · rename_i cs hr
        rw [hr] at hd
        split at h
        · exact absurd h (by simp)
        · rename_i consumed rest'' hg
          have h1 := globConsume_lt cs.length cs le_rfl ']' consumed rest'' hg
          have h2 := ih rest'' (by simp only [List.length_cons] at hd; omega) _ _ _ h
          simp only [List.length_cons] at hd
          omega
      · simp only [Except.ok.injEq, Prod.mk.injEq] at h
        simp [← h.2]
      · rename_i c cs hr
        rw [hr] at hd
        split at h
        · simp only [Except.ok.injEq, Prod.mk.injEq] at h
          rw [← h.2]
          exact hd
        · exact absurd h (by simp)

/-- If the input starts with a character that is neither whitespace nor a
delimiter, a successful metric scan consumes at least that character. -/
theorem scanMetric_head_lt (rest acc : Str) (t : Tok) (r' : Str)
    (h : scanMetric acc rest = .ok (t, r')) (c : Char) (cs' : Str)
    (hrest : rest = c :: cs') (hc : isIn c [charWhitespace, charDelim] = false) :
    r'.length < rest.length := by
  subst hrest
  have hd := dropWhile_length_le (isIn · [charIdentifier, "*.".toList]) (c :: cs')
  rw [scanMetric.eq_def] at h
  split at h
  · rename_i csB hr
    rw [hr] at hd
    split at h
    · exact absurd h (by simp)
    · rename_i consumed rest'' hg
      have h1 := globConsume_lt csB.length csB le_rfl '\x7d' consumed rest'' hg
      have h2 := scanMetric_le rest''.length rest'' le_rfl _ _ _ h
      simp only [List.length_cons] at *
      omega
  · rename_i csB hr
    rw [hr] at hd
    split at h
    · exact absurd h (by simp)
    · rename_i consumed rest'' hg
      have h1 := globConsume_lt csB.length csB le_rfl ']' consumed rest'' hg
      have h2 := scanMetric_le rest''.length rest'' le_rfl _ _ _ h
      simp only [List.length_cons] at *
      omega
  · simp only [Except.ok.injEq, Prod.mk.injEq] at h
    rw [← h.2]
    simp
  · rename_i c2 cs2 hr
    split at h
    · rename_i hboundary
      simp only [Except.ok.injEq, Prod.mk.injEq] at h
      by_cases hp : isIn c [charIdentifier, "*.".toList] = true
      · have hdrop : (c :: cs').dropWhile (isIn · [charIdentifier, "*.".toList]) =
            cs'.dropWhile (isIn · [charIdentifier, "*.".toList]) := by
          rw [List.dropWhile_cons, if_pos hp]
        rw [hdrop] at hr
        obtain ⟨-, hr2⟩ := h
        have hlen := dropWhile_length_le (isIn · [charIdentifier, "*.".toList]) cs'
        rw [hr] at hlen
        rw [← hr2]
        simp only [List.length_cons] at hlen ⊢
        omega
      · have hdrop : (c :: cs').dropWhile (isIn · [charIdentifier, "*.".toList]) =
            c :: cs' := by
          rw [List.dropWhile_cons, if_neg]
          simpa using hp
        rw [hdrop] at hr
        obtain ⟨rfl, -⟩ := List.cons.injEq .. ▸ hr
        rw [hboundary] at hc
        exact absurd hc (by simp)
    · exact absurd h (by simp)

/-- None of the glob characters is whitespace or a delimiter. -/
theorem glob_not_wsdelim (c : Char) (hc : isIn c [charGlob] = true) :
    isIn c [charWhitespace, charDelim] = false := by
  have : c = '[' ∨ c = ']' ∨ c = '\x7b' ∨ c = '\x7d' ∨ c = '*' := by
    simpa [isIn, charGlob] using hc
  rcases this with rfl | rfl | rfl | rfl | rfl <;> decide

/-- An identifier-leading successful word scan consumes at least the
first character. -/
theorem scanName_lt (rest : Str) (t : Tok) (r' : Str)
    (h : scanName rest = .ok (t, r')) (c : Char) (cs' : Str)
    (hrest : rest = c :: cs') (hc : isIn c [charIdentifier] = true) :
    r'.length < rest.length := by
  subst hrest
  have hdrop : (c :: cs').dropWhile (isIn · [charIdentifier]) =
      cs'.dropWhile (isIn · [charIdentifier]) := by
    rw [List.dropWhile_cons, if_pos hc]
  have hlen := dropWhile_length_le (isIn · [charIdentifier]) cs'
  rw [scanName.eq_def, hdrop] at h
  split at h
  · exact absurd h (by simp)
  · rename_i c2 cs2 hr
    rw [hr] at hlen
    split at h
    · simp only [Except.ok.injEq, Prod.mk.injEq] at h
      rw [← h.2]
      simp only [List.length_cons] at hlen ⊢
      omega
    · split at h
      · have := scanMetric_le cs2.length cs2 le_rfl _ _ _ h
        simp only [List.length_cons] at hlen ⊢
        omega
      · exact absurd h (by simp)

theorem numParts_snd_le (c : Char) (cs' : Str)
    (hc : isIn c [charNumeric, "+-".toList] = true) :
    (numParts (c :: cs')).2.length ≤ cs'.length := by
  rw [numParts.eq_def]
  by_cases hs : c = '+' ∨ c = '-'
  · simp only [hs, if_pos]
    have hlen := dropWhile_length_le (isIn · [charNumeric]) cs'
    split
    · rename_i cs2 hr
      have hlen2 := dropWhile_length_le (isIn · [charNumeric]) cs2
      rw [hr] at hlen
      simp only [List.length_cons] at hlen ⊢
      omega
    · exact hlen
  · simp only [hs, if_neg, if_false]
    have hpm : isIn c ["+-".toList] = false := by
      simp only [isIn, List.any_cons, List.any_nil, Bool.or_false, decide_eq_false_iff_not]
      simpa using hs
    have hcn : isIn c [charNumeric] = true := by
      have h1 := hc
      simp only [isIn, List.any_cons, List.any_nil, Bool.or_false, Bool.or_eq_true] at h1 ⊢
      rcases h1 with h | h
      · exact h
      · exact absurd h (by simpa [isIn, List.any_cons, List.any_nil] using hpm)
    have hdrop : (c :: cs').dropWhile (isIn · [charNumeric]) =
        cs'.dropWhile (isIn · [charNumeric]) := by
      rw [List.dropWhile_cons, if_pos hcn]
    rw [hdrop]
    have hlen := dropWhile_length_le (isIn · [charNumeric]) cs'
    split
    · rename_i cs2 hr
      have hlen2 := dropWhile_length_le (isIn · [charNumeric]) cs2
      rw [hr] at hlen
      simp only [List.length_cons] at hlen ⊢
      omega
    · exact hlen

theorem scanNumberTail_le (acc r3 : Str) (t : Tok) (r' : Str)
    (h : scanNumberTail acc r3 = .ok (t, r')) : r'.length ≤ r3.length := by
  rw [scanNumberTail.eq_def] at h
  split at h
  · exact absurd h (by simp)
  · split at h
    · simp only [Except.ok.injEq, Prod.mk.injEq] at h
      rw [← h.2]
    · split at h
      · rename_i c cs hb hm
        have := scanMetric_le (c :: cs).length (c :: cs) le_rfl _ _ _ h
        exact this
      · exact absurd h (by simp)

/-- A number-leading successful scan consumes at least the first
character. -/
theorem scanNumber_lt (rest : Str) (t : Tok) (r' : Str)
    (h : scanNumber rest = .ok (t, r')) (c : Char) (cs' : Str)
    (hrest : rest = c :: cs') (hc : isIn c [charNumeric, "+-".toList] = true) :
    r'.length < rest.length := by
  subst hrest
  rw [scanNumber] at h
  have h1 := scanNumberTail_le _ _ _ _ h
  have h2 := numParts_snd_le c cs' hc
  simp only [List.length_cons]
  omega

/-- A successful quote scan consumes the quote and at least its closing
counterpart. -/
theorem scanQuote_lt (rest : Str) (t : Tok) (r' : Str)
    (h : scanQuote rest = .ok (t, r')) : r'.length < rest.length := by
  rw [scanQuote.eq_def] at h
  split at h
  · exact absurd h (by simp)
  · rename_i q cs
    split at h
    · exact absurd h (by simp)
    · rename_i consumed rest'' hg
      simp only [Except.ok.injEq, Prod.mk.injEq] at h
      have := globConsume_lt cs.length cs le_rfl q consumed rest'' hg
      rw [← h.2]
      simp only [List.length_cons]
      omega

/-- `lexClear` iterated to the end of the input: route on the first
character in source order (number, whitespace, identifier, glob,
delimiter, quote), collect the emitted tokens, or fail with the scanner's
error. -/
def lexAll (s : Str) : Except Str (List Tok) :=
  match s with
  | [] => .ok []
  | c :: cs =>
    if hn : isIn c [charNumeric, "+-".toList] = true then
      match h : scanNumber (c :: cs) with
      | .error e => .error e
      | .ok (t, rest) => (lexAll rest).map (t :: ·)
    else if isIn c [charWhitespace] = true then lexAll cs
    else if hi : isIn c [charIdentifier] = true then
      match h : scanName (c :: cs) with
      | .error e => .error e
      | .ok (t, rest) => (lexAll rest).map (t :: ·)
    else if hg : isIn c [charGlob] = true then
      match h : scanMetric [] (c :: cs) with
      | .error e => .error e
      | .ok (t, rest) => (lexAll rest).map (t :: ·)
    else if isIn c [charDelim] = true then (lexAll cs).map (delimTok c :: ·)
    else if isIn c [charQuote] = true then
      match h : scanQuote (c :: cs) with
      | .error e => .error e
      | .ok (t, rest) => (lexAll rest).map (t :: ·)
    else .error "unexpected character".toList
termination_by s.length
decreasing_by
  · exact scanNumber_lt (c :: cs) t rest h c cs rfl hn
  · simp only [List.length_cons]; omega
  · exact scanName_lt (c :: cs) t rest h c cs rfl hi
  · exact scanMetric_head_lt (c :: cs) [] t rest h c cs rfl (glob_not_wsdelim c hg)
  · simp only [List.length_cons]; omega
  · exact scanQuote_lt (c :: cs) t rest h

/-! ## The parser

Modelled from the spec: the yacc-generated LALR parser over the
METRIC/WORD/NUMBER/STRING token stream (the generated `expr.go`) is not in
the source tree, only its grammar is specified:

    Query   := Metric | Func
    Func    := WORD '(' ArgList ')'
    ArgList := ε | Expr | ArgList ',' Expr
    Expr    := Query | STRING | NUMBER

A bare literal at top level is rejected; trailing input is an error.  The
shift automaton below implements exactly this grammar: one frame per open
function call. -/

/-- Parser automaton state: expecting an expression (the flag allows the
`)` of an empty argument list), after a function-name WORD, or holding a
completed expression. -/
inductive PState where
  | expectExpr (allowRP : Bool)
  | afterWord (w : Str)
  | haveExpr (e : Expr)

/-- Modelled from the spec: the LALR parse loop over the token stream.
`frames` holds, innermost first, each open call's name and the arguments
completed so far. -/
def parseLoop (frames : List (Str × List Expr)) (st : PState) (ts : List Tok) :
    Except Str Expr :=
  match ts with
  | [] =>
    match st, frames with
    | .haveExpr e, [] => .ok e
    | _, _ => .error "syntax error".toList
  | t :: rest =>
    match st with
    | .expectExpr allowRP =>
      match t with
      | .metric s => parseLoop frames (.haveExpr (.metric s)) rest
      | .str s =>
          if frames.isEmpty then .error "syntax error".toList
          else parseLoop frames (.haveExpr (.value s)) rest
      | .number s =>
          if frames.isEmpty then .error "syntax error".toList
          else parseLoop frames (.haveExpr (.value s)) rest
      | .word w => parseLoop frames (.afterWord w) rest
      | .rparen =>
          if allowRP then
            match frames with
            | (w, args) :: fs => parseLoop fs (.haveExpr (.func w args)) rest
            | [] => .error "syntax error".toList
          else .error "syntax error".toList
      | _ => .error "syntax error".toList
    | .afterWord w =>
      match t with
      | .lparen => parseLoop ((w, []) :: frames) (.expectExpr true) rest
      | _ => .error "syntax error".toList
    | .haveExpr e =>
      match t with
      | .comma =>
          match frames with
          | (w, args) :: fs => parseLoop ((w, args ++ [e]) :: fs) (.expectExpr false) rest
          | [] => .error "syntax error".toList
      | .rparen =>
          match frames with
          | (w, args) :: fs => parseLoop fs (.haveExpr (.func w (args ++ [e]))) rest
          | [] => .error "syntax error".toList
      | _ => .error "syntax error".toList

/-- Modelled from the spec: run the automaton from the start state. -/
def parseTokens (ts : List Tok) : Except Str Expr :=
  parseLoop [] (.expectExpr false) ts

/-- `query.Parse`: lex the target, run the parser, and return the
resulting `*Query` or the first error. -/
def parse (s : Str) : Except Str Query := do
  let ts ← lexAll s
  let e ← parseTokens ts
  .ok ⟨e⟩

/-! ## Round-trip vocabulary: the token image of an expression and the
lexical sanity of its leaves -/

/-- Whether an expression is a bare literal (STRING or NUMBER). -/
def isValue : Expr → Bool
  | .value _ => true
  | _ => false

/-- The token a serialised literal re-lexes to: STRING when it starts
with a quote character, NUMBER otherwise. -/
def valueTok (v : Str) : Tok :=
  match v with
  | q :: _ => if isIn q [charQuote] then .str v else .number v
  | [] => .number v

mutual
/-- The token stream the serialisation of an expression re-lexes to. -/
def tokensOfExpr : Expr → List Tok
  | .metric m => [.metric m]
  | .value v => [valueTok v]
  | .func n args => .word n :: .lparen :: (tokensOfArgs args ++ [.rparen])
  | .query e => tokensOfExpr e

/-- Token streams of an argument list, COMMA separated. -/
def tokensOfArgs : List Expr → List Tok
  | [] => []
  | [a] => tokensOfExpr a
  | a :: b :: rest => tokensOfExpr a ++ .comma :: tokensOfArgs (b :: rest)
end

/-- Whether `lexMetric` scanning consumes this entire text and accepts
at end of input: runs of identifier, star and dot characters, with brace
lists and bracket globs closed by their sub-scanners. -/
def metOK (rest : Str) : Bool :=
  match hr : rest.dropWhile (isIn · [charIdentifier, "*.".toList]) with
  | '\x7b' :: cs =>
      match hg : globConsume '\x7d' cs with
      | none => false
      | some (_, rest') => metOK rest'
  | '[' :: cs =>
      match hg : globConsume ']' cs with
      | none => false
      | some (_, rest') => metOK rest'
  | [] => true
  | _ :: _ => false
termination_by rest.length
decreasing_by
  · have h1 := dropWhile_length_le (isIn · [charIdentifier, "*.".toList]) rest
    rw [hr] at h1
    have h2 := globConsume_lt cs.length cs le_rfl '\x7d' _ rest' hg
    simp only [List.length_cons] at h1
    omega
  · have h1 := dropWhile_length_le (isIn · [charIdentifier, "*.".toList]) rest
    rw [hr] at h1
    have h2 := globConsume_lt cs.length cs le_rfl ']' _ rest' hg
    simp only [List.length_cons] at h1
    omega

/-- A metric text the scanner tokenises back as one METRIC, covering the
three entry routes of `lexClear`: leading digit or sign (via `lexNumber`,
whose consumed part must be continued by an alphanumeric, glob or dot
character), leading glob character (straight into `lexMetric`), and
leading letter or underscore (via `lexName`, whose identifier run must
fall through at a star or dot — falling through at a brace or bracket
would swallow the opener, so those are excluded). -/
def goodMetric (m : Str) : Bool :=
  match m with
  | [] => false
  | c :: _ =>
      if isIn c [charNumeric, "+-".toList] then
        match (numParts m).2 with
        | [] => false
        | t :: _ =>
            isIn t [charAlpha ++ charNumeric, charGlob, charDot] &&
            metOK (numParts m).2
      else if isIn c [charGlob] then metOK m
      else if isIn c [charIdentifier] then
        match m.dropWhile (isIn · [charIdentifier]) with
        | [] => false
        | g :: B => isIn g ["*.".toList] && metOK B
      else false

/-- A function name the scanner tokenises back as one WORD: identifier
characters leading with a letter or underscore. -/
def goodWord (n : Str) : Bool :=
  match n with
  | [] => false
  | c :: _ => n.all (isIn · [charIdentifier]) && isIn c [charAlpha, "_".toList]

/-- A NUMBER literal's text: an optional sign, a digit run, optionally a
dot and another digit run — exactly what `lexNumber` consumes. -/
def goodNumber (v : Str) : Bool :=
  match v with
  | [] => false
  | c :: cs =>
      isIn c [charNumeric, "+-".toList] &&
      (let body := if c = '+' ∨ c = '-' then cs else c :: cs
       match body.dropWhile (isIn · [charNumeric]) with
       | [] => true
       | '.' :: ds2 => ds2.all (isIn · [charNumeric])
       | _ => false)

/-- A STRING literal's text: the opening quote plus a body that
`lexQuote` consumes completely, closing quote included. -/
def goodString (v : Str) : Bool :=
  match v with
  | [] => false
  | q :: bs => isIn q [charQuote] && decide (globConsume q bs = some (bs, []))

/-- A literal that re-lexes to one STRING or one NUMBER token. -/
def goodValue (v : Str) : Bool := goodString v || goodNumber v

/-- What may follow a serialised expression: end of input or a
delimiter character (`(`, `)` or `,`). -/
def boundaryB (w : Str) : Bool :=
  match w with
  | [] => true
  | b :: _ => isIn b [charDelim]

mutual
/-- Round-trippable expressions: sane leaves, no `query` wrapper nodes,
and (at top level) no bare literal — the grammar only derives literals
inside argument lists. -/
def wfExprB (topLevel : Bool) : Expr → Bool
  | .metric m => goodMetric m
  | .value v => !topLevel && goodValue v
  | .func n args => goodWord n && wfArgsB args
  | .query _ => false

/-- Round-trippable argument lists. -/
def wfArgsB : List Expr → Bool
  | [] => true
  | a :: rest => wfExprB false a && wfArgsB rest
end

/-! ## Go `path.Match` (used by `Metric.Match` via `Metric.match`) -/

/-- `getEsc`: one character or escaped character of a range: an empty
chunk, a leading `-` or `]`, a trailing backslash, or an empty remainder
is `ErrBadPattern` (`none`). -/
def getEsc (chunk : Str) : Option (Char × Str) :=
  match chunk with
  | [] => none
  | c :: cs =>
    if c = '-' ∨ c = ']' then none
    else if c = '\\' then
      match cs with
      | [] => none
      | c2 :: cs2 => if cs2 = [] then none else some (c2, cs2)
    else if cs = [] then none else some (c, cs)

theorem getEsc_lt (chunk : Str) (c : Char) (rest : Str)
    (h : getEsc chunk = some (c, rest)) : rest.length < chunk.length := by
  rw [getEsc.eq_def] at h
  split at h
  · simp at h
  · rename_i c0 cs
    split at h
    · simp at h
    · split at h
      · match cs with
        | [] => simp at h
        | c2 :: cs2 =>
            dsimp only at h
            split at h
            · simp at h
            · simp only [Option.some.injEq, Prod.mk.injEq] at h
              rw [← h.2]
              simp only [List.length_cons]
              omega
      · split at h
        · simp at h
        · simp only [Option.some.injEq, Prod.mk.injEq] at h
          rw [← h.2]
          simp only [List.length_cons]
          omega

/-- One `lo-hi` range of a character class: `lo` via `getEsc`, and when a
`-` follows, `hi` via `getEsc` on the rest; otherwise `hi = lo`. -/
def rangeParse (chunk : Str) : Option (Char × Char × Str) :=
  match getEsc chunk with
  | none => none
  | some (lo, rest1) =>
    match rest1 with
    | '-' :: rest2 =>
      (match getEsc rest2 with
       | none => none
       | some (hi, rest3) => some (lo, hi, rest3))
    | _ => some (lo, lo, rest1)

theorem rangeParse_lt (chunk : Str) (lo hi : Char) (rest : Str)
    (h : rangeParse chunk = some (lo, hi, rest)) : rest.length < chunk.length := by
  rw [rangeParse.eq_def] at h
  split at h
  · simp at h
  · rename_i lo1 rest1 hg
    have h1 := getEsc_lt chunk lo1 rest1 hg
    split at h
    · split at h
      · simp at h
      · rename_i hi1 rest3 hg2
        have h2 := getEsc_lt _ hi1 rest3 hg2
        simp only [Option.some.injEq, Prod.mk.injEq] at h
        obtain ⟨-, -, rfl⟩ := h
        simp only [List.length_cons] at h1
        omega
    · simp only [Option.some.injEq, Prod.mk.injEq] at h
      obtain ⟨-, -, rfl⟩ := h
      omega

/-- The range loop of `matchChunk` inside `[...]`: stop past `]` once at
least one range was seen, otherwise fold the next range into `seen`. -/
def matchRanges (r : Char) (seen : Bool) (nrange : Nat) (chunk : Str) :
    Option (Bool × Str) :=
  if chunk ≠ [] ∧ chunk.head? = some ']' ∧ nrange > 0 then some (seen, chunk.tail)
  else
    match hg : rangeParse chunk with
    | none => none
    | some (lo, hi, rest) =>
        matchRanges r (seen || (lo ≤ r && r ≤ hi)) (nrange + 1) rest
termination_by chunk.length
decreasing_by
  exact rangeParse_lt chunk lo hi rest hg

theorem matchRanges_lt : ∀ (n : Nat) (chunk : Str), chunk.length ≤ n →
    ∀ (r : Char) (seen : Bool) (nrange : Nat) (b : Bool) (rest : Str),
      matchRanges r seen nrange chunk = some (b, rest) → rest.length < chunk.length := by
  intro n
  induction n with
  | zero =>
      intro chunk hle r seen nrange b rest h
      match chunk with
      | [] =>
          rw [matchRanges.eq_def] at h
          simp [rangeParse, getEsc] at h
  | succ n ih =>
      intro chunk hle r seen nrange b rest h
      rw [matchRanges.eq_def] at h
      split at h
      · rename_i hstop
        simp only [Option.some.injEq, Prod.mk.injEq] at h
        obtain ⟨-, rfl⟩ := h
        match chunk, hstop with
        | c :: cs, hstop => simp only [List.tail_cons, List.length_cons]; omega
      · split at h
        · simp at h
        · rename_i lo hi rest1 hg
          have h1 := rangeParse_lt chunk lo hi rest1 hg
          have h2 := ih rest1 (by omega) r _ _ b rest h
          omega

/-- Result of `matchChunk`: `ErrBadPattern`, no match, or the unmatched
remainder of the name. -/
inductive ChunkRes where
  | bad
  | nomatch
  | ok (rest : Str)
deriving DecidableEq

/-- A leading `^` negates a character class. -/
def classNeg (cs : Str) : Bool × Str :=
  match cs with
  | '^' :: cs2 => (true, cs2)
  | _ => (false, cs)

theorem classNeg_le (cs : Str) : (classNeg cs).2.length ≤ cs.length := by
  rw [classNeg.eq_def]
  split
  · simp only [List.length_cons]; omega
  · exact le_rfl

/-- One step of `matchChunk` for the leading chunk character: `none` is
`ErrBadPattern`, `some none` a failed match, `some (some rest)` the chunk
remainder to continue with. -/
def matchChunkStep (c : Char) (cs : Str) (sc : Char) : Option (Option Str) :=
  if c = '[' then
    match matchRanges sc false 0 (classNeg cs).2 with
    | none => none
    | some (seen, chunk2) => if seen = (classNeg cs).1 then some none else some (some chunk2)
  else if c = '?' then
    if sc = '/' then some none else some (some cs)
  else if c = '\\' then
    match cs with
    | [] => none
    | c2 :: cs2 => if c2 ≠ sc then some none else some (some cs2)
  else if c ≠ sc then some none
  else some (some cs)

/-- `matchChunk` matches a chunk (no stars) against the beginning of a
name, handling classes, `?`, escapes and literals; it fails on a
non-empty chunk once the name is exhausted. -/
def matchChunk : Str → Str → ChunkRes
  | [], s => .ok s
  | _ :: _, [] => .nomatch
  | c :: cs, sc :: ss =>
    match matchChunkStep c cs sc with
    | none => .bad
    | some none => .nomatch
    | some (some chunk2) => matchChunk chunk2 ss

theorem matchChunk_le : ∀ (s chunk t : Str),
    matchChunk chunk s = .ok t → t.length ≤ s.length := by
  intro s
  induction s with
  | nil =>
      intro chunk t h
      match chunk with
      | [] =>
          simp only [matchChunk, ChunkRes.ok.injEq] at h
          simp [← h]
      | c :: cs => simp [matchChunk] at h
  | cons sc ss ih =>
      intro chunk t h
      match chunk with
      | [] =>
          simp only [matchChunk, ChunkRes.ok.injEq] at h
          simp [← h]
      | c :: cs =>
          simp only [matchChunk] at h
          split at h
          · simp at h
          · simp at h
          · rename_i chunk2 hstep
            have := ih _ t h
            simp only [List.length_cons]
            omega

/-- `scanChunk`: strip leading stars. -/
def stripStars : Str → Bool × Str
  | c :: ps =>
      if c = '*' then (true, (stripStars ps).2)
      else (false, c :: ps)
  | [] => (false, [])

/-- `scanChunk`: copy pattern bytes into the chunk until a star outside a
bracket range; a backslash copies the following byte as well. -/
def scanChunkLoop (inrange : Bool) : Str → Str × Str
  | [] => ([], [])
  | c :: ps =>
    if c = '\\' then
      match ps with
      | [] => ([c], [])
      | p2 :: ps2 => (c :: p2 :: (scanChunkLoop inrange ps2).1, (scanChunkLoop inrange ps2).2)
    else if c = '[' then (c :: (scanChunkLoop true ps).1, (scanChunkLoop true ps).2)
    else if c = ']' then (c :: (scanChunkLoop false ps).1, (scanChunkLoop false ps).2)
    else if c = '*' ∧ inrange = false then ([], c :: ps)
    else (c :: (scanChunkLoop inrange ps).1, (scanChunkLoop inrange ps).2)

/-- `scanChunk` returns the star flag, the chunk, and the rest of the
pattern. -/
def scanChunk (pattern : Str) : Bool × Str × Str :=
  ((stripStars pattern).1,
   (scanChunkLoop false (stripStars pattern).2).1,
   (scanChunkLoop false (stripStars pattern).2).2)

theorem scanChunkLoop_split : ∀ (n : Nat) (ps : Str), ps.length ≤ n → ∀ (inrange : Bool),
    (scanChunkLoop inrange ps).1 ++ (scanChunkLoop inrange ps).2 = ps := by
  intro n
  induction n with
  | zero =>
      intro ps hle inrange
      match ps with
      | [] => simp [scanChunkLoop]
  | succ n ih =>
      intro ps hle inrange
      match ps with
      | [] => simp [scanChunkLoop]
      | c :: cs =>
          simp only [List.length_cons] at hle
          rw [scanChunkLoop.eq_def]
          dsimp only
          split
          · split
            · simp
            · rename_i p2 ps2
              have := ih ps2 (by simp only [List.length_cons] at hle; omega) inrange
              simpa using this
          · split
            · have := ih cs (by omega) true
              simpa using this
            · split
              · have := ih cs (by omega) false
                simpa using this
              · split
                · simp
                · have := ih cs (by omega) inrange
                  simpa using this

theorem stripStars_le (p : Str) : (stripStars p).2.length ≤ p.length := by
  induction p with
  | nil => simp [stripStars]
  | cons c cs ih =>
      simp only [stripStars]
      split
      · simp only [List.length_cons]
        exact Nat.le_succ_of_le ih
      · simp

theorem stripStars_false_eq (p : Str) (h : (stripStars p).1 = false) :
    (stripStars p).2 = p := by
  match p with
  | [] => simp [stripStars]
  | c :: cs =>
      simp only [stripStars] at h ⊢
      split at h
      · simp at h
      · rename_i hc
        rw [if_neg hc]

theorem stripStars_true_lt (p : Str) (h : (stripStars p).1 = true) :
    (stripStars p).2.length < p.length := by
  match p with
  | [] => simp [stripStars] at h
  | c :: cs =>
      simp only [stripStars] at h ⊢
      split at h
      · rename_i hc
        rw [if_pos hc]
        have := stripStars_le cs
        simp only [List.length_cons]
        omega
      · simp at h

theorem stripStars_head_ne_star (p : Str) :
    ∀ c cs, (stripStars p).2 = c :: cs → c ≠ '*' := by
  induction p with
  | nil => intro c cs h; simp [stripStars] at h
  | cons a as ih =>
      intro c cs h
      simp only [stripStars] at h
      split at h
      · exact ih c cs h
      · rename_i hne
        obtain ⟨rfl, -⟩ := List.cons.injEq .. ▸ h
        simpa using hne

/-- If scanning does not hit the trailing-star return, the rest of the
pattern is strictly shorter. -/
theorem scanChunk_progress (pattern : Str) (hne : pattern ≠ []) :
    ((scanChunk pattern).1 = true ∧ (scanChunk pattern).2.1 = []) ∨
      (scanChunk pattern).2.2.length < pattern.length := by
  by_cases hstar : (stripStars pattern).1 = true
  · by_cases hchunk : (scanChunkLoop false (stripStars pattern).2).1 = []
    · left
      exact ⟨hstar, hchunk⟩
    · right
      have hsplit := scanChunkLoop_split (stripStars pattern).2.length _ le_rfl false
      have hlt := stripStars_true_lt pattern hstar
      have hlen := congrArg List.length hsplit
      simp only [List.length_append] at hlen
      simp only [scanChunk]
      omega
  · right
    have hs : (stripStars pattern).1 = false := by simpa using hstar
    have heq := stripStars_false_eq pattern hs
    match hp : (stripStars pattern).2 with
    | [] => exact absurd (by rw [← heq, hp]) hne
    | c :: cs =>
        have hcs : c ≠ '*' := stripStars_head_ne_star pattern c cs hp
        have hsplit := scanChunkLoop_split (c :: cs).length _ le_rfl false
        have hchunk : (scanChunkLoop false (c :: cs)).1 ≠ [] := by
          rw [scanChunkLoop.eq_def]
          dsimp only
          split
          · split
            · simp
            · simp
          · split
            · simp
            · split
              · simp
              · split
                · rename_i hx
                  exact absurd hx.1 hcs
                · simp
        have hpos : 0 < (scanChunkLoop false (c :: cs)).1.length :=
          List.length_pos.mpr hchunk
        have hlen := congrArg List.length hsplit
        simp only [List.length_append, List.length_cons] at hlen
        have hpat : pattern = c :: cs := by rw [← heq, hp]
        simp only [scanChunk, hp]
        rw [hpat]
        simp only [List.length_cons]
        omega

mutual
/-- Go `path.Match` main loop: scan a chunk, handle a trailing star, try
the chunk at the current position, and on failure retry after each
skipped non-slash byte when the chunk follows a star. -/
def goMatch (pattern name : Str) : Option Bool :=
  match hp : pattern with
  | [] => some name.isEmpty
  | _ :: _ =>
    if (scanChunk pattern).1 = true ∧ (scanChunk pattern).2.1 = [] then
      some (!(name.contains '/'))
    else
      match matchChunk (scanChunk pattern).2.1 name with
      | .ok t =>
          if t = [] ∨ (scanChunk pattern).2.2 ≠ [] then goMatch (scanChunk pattern).2.2 t
          else if (scanChunk pattern).1 then
            goStar (scanChunk pattern).2.1 (scanChunk pattern).2.2 name
          else some false
      | .bad => none
      | .nomatch =>
          if (scanChunk pattern).1 then
            goStar (scanChunk pattern).2.1 (scanChunk pattern).2.2 name
          else some false
termination_by (pattern.length, name.length)
decreasing_by
  · rcases scanChunk_progress pattern (by subst hp; simp) with htriv | hlt
    · exact absurd htriv (by assumption)
    · subst hp
      exact Prod.Lex.left _ _ hlt
  · rcases scanChunk_progress pattern (by subst hp; simp) with htriv | hlt
    · exact absurd htriv (by assumption)
    · subst hp
      exact Prod.Lex.left _ _ hlt
  · rcases scanChunk_progress pattern (by subst hp; simp) with htriv | hlt
    · exact absurd htriv (by assumption)
    · subst hp
      exact Prod.Lex.left _ _ hlt

/-- The star-retry loop of `path.Match`: skip one non-slash byte of the
name at a time and retry the chunk. -/
def goStar (chunk rest name : Str) : Option Bool :=
  match name with
  | [] => some false
  | c :: cs =>
    if c = '/' then some false
    else
      match hm : matchChunk chunk cs with
      | .ok t =>
          if rest = [] ∧ t ≠ [] then goStar chunk rest cs
          else goMatch rest t
      | .bad => none
      | .nomatch => goStar chunk rest cs
termination_by (rest.length, name.length)
decreasing_by
  · exact Prod.Lex.right _ (by simp only [List.length_cons]; omega)
  · have ht := matchChunk_le cs chunk t hm
    rcases Nat.lt_or_ge t.length (c :: cs).length with hlt | hge
    · exact Prod.Lex.right _ hlt
    · simp only [List.length_cons] at hge; omega
  · exact Prod.Lex.right _ (by simp only [List.length_cons]; omega)
end

/-- `path.Match`: `none` models `ErrBadPattern`. -/
def pathMatch (pattern name : Str) : Option Bool := goMatch pattern name

/-- `Metric.match`: false on a malformed pattern, else the match result. -/
def mmatch (pat s : Str) : Bool :=
  match pathMatch pat s with
  | none => false
  | some ok => ok

/-- `Metric.Match`: true when any brace expansion of the metric matches
the name. -/
def mMatch (m name : Str) : Bool := (mexpand m).any fun pat => mmatch pat name

/-! ## Mux.metricsInfo and the /metrics handler (package backend) -/

/-- `Mux.matchingServers`: every server whose name is matched by the first
component of some metric of the query.  The server map is modelled as the
ordered list of its names. -/
def matchingServers (servers : List Str) (q : Query) : List Str :=
  servers.filter fun srv => (q.metrics).any fun metric => mMatch (msplit metric).1 srv

/-- Outcome of `Mux.metricsInfo`: an HTTP error written to the client, or
the matching servers, the top-level flag (`len(rest) == 0`), and the
rewritten `query` form value. -/
inductive MetricsInfoResult where
  | httpErr (code : Nat)
  | route (hits : List Str) (toplevel : Bool) (rewritten : Str)
deriving DecidableEq

/-- `Mux.metricsInfo`: reject non-GET with 405; parse the `query` form
value (400 on error); require a bare metric (400); split off the prefix
and rewrite the form value to the rest; match servers (404 when none). -/
def metricsInfo (method queryParam : Str) (servers : List Str) : MetricsInfoResult :=
  if method ≠ "GET".toList then .httpErr 405
  else
    match parse queryParam with
    | .error _ => .httpErr 400
    | .ok q =>
      match q.expr with
      | .metric m =>
          let rest := (msplit m).2
          let hits := matchingServers servers q
          if hits.length = 0 then .httpErr 404
          else .route hits (rest.length = 0) rest
      | _ => .httpErr 400

/-- What the `/metrics/find` handler does before any merging: an HTTP
error, the synthesised top-level listing (returned with no backend
calls), or a dispatch of the request to the matching servers. -/
inductive MetricsHandlerResult where
  | httpErr (code : Nat)
  | toplevelNodes (nodes : List MetricNode)
  | dispatch (servers : List Str)
deriving DecidableEq

/-- `Mux.metrics` up to the proxy loop: on the top-level flag, synthesise
one non-leaf node per matching server (`{0, name, name + "."}`) and
return immediately; otherwise dispatch to the servers. -/
def metricsHandler (method queryParam : Str) (servers : List Str) : MetricsHandlerResult :=
  match metricsInfo method queryParam servers with
  | .httpErr code => .httpErr code
  | .route hits toplevel _ =>
      if toplevel then
        .toplevelNodes (hits.map fun srv => { leaf := 0, name := srv, path := srv ++ ['.'] })
      else .dispatch hits

/-! ## General lemmas about the embedded operations -/

theorem msplit_nodot (m : Str) (h : '.' ∉ m) : msplit m = (m, []) := by
  simp [msplit, h]

theorem takeWhile_nodot (B rest : Str) (hB : '.' ∉ B) :
    (B ++ '.' :: rest).takeWhile (fun x => !decide (x = '.')) = B := by
  induction B with
  | nil => simp [List.takeWhile_cons]
  | cons c cs ih =>
      have hc : c ≠ '.' := fun hc => hB (by simp [hc])
      have ihh := ih (by intro hx; exact hB (by simp [hx]))
      simp [List.takeWhile_cons, hc, ihh]

theorem dropWhile_nodot (B rest : Str) (hB : '.' ∉ B) :
    (B ++ '.' :: rest).dropWhile (fun x => !decide (x = '.')) = '.' :: rest := by
  induction B with
  | nil => simp [List.dropWhile_cons]
  | cons c cs ih =>
      have hc : c ≠ '.' := fun hc => hB (by simp [hc])
      have ihh := ih (by intro hx; exact hB (by simp [hx]))
      simp [List.dropWhile_cons, hc, ihh]

theorem msplit_dot_split (B rest : Str) (hB : '.' ∉ B) :
    msplit (B ++ '.' :: rest) = (B, rest) := by
  have hmem : '.' ∈ B ++ '.' :: rest := by simp
  simp [msplit, hmem, takeWhile_nodot B rest hB, dropWhile_nodot B rest hB]

mutual
theorem metricsExpr_strip : ∀ (e : Expr) (d : Nat),
    metricsExpr (stripExpr e d) d = (metricsExpr e d).map fun m => (msplit m).2
  | e, d => by
    by_cases hd : d > 200
    · rw [stripExpr.eq_def, metricsExpr.eq_def, metricsExpr.eq_def]
      simp [hd]
    · match e with
      | .metric m =>
          rw [stripExpr.eq_def, metricsExpr.eq_def, metricsExpr.eq_def]
          simp [hd]
      | .value v =>
          rw [stripExpr.eq_def, metricsExpr.eq_def, metricsExpr.eq_def]
          simp [hd]
      | .query e =>
          rw [stripExpr.eq_def, metricsExpr.eq_def, metricsExpr.eq_def]
          simp only [hd, if_false]
          exact metricsExpr_strip e (d + 1)
      | .func n args =>
          rw [stripExpr.eq_def, metricsExpr.eq_def, metricsExpr.eq_def]
          simp only [hd, if_false]
          exact metricsArgs_strip args (d + 1)

theorem metricsArgs_strip : ∀ (args : List Expr) (d : Nat),
    metricsArgs (stripArgs args d) d = (metricsArgs args d).map fun m => (msplit m).2
  | [], d => by simp [stripArgs, metricsArgs]
  | a :: rest, d => by
      rw [stripArgs.eq_def]
      simp only [metricsArgs, List.map_append]
      rw [metricsExpr_strip a d, metricsArgs_strip rest d]
end

theorem metrics_stripPrefixQ (q : Query) :
    (stripPrefixQ q).metrics = q.metrics.map fun m => (msplit m).2 := by
  exact metricsExpr_strip q.expr 0

theorem renderRouteLoop_same (p : Str) (ms l : List Str)
    (h : ∀ x ∈ ms, (msplit x).1 = p) :
    renderRouteLoop p (ms ++ l) =
      ((renderRouteLoop p l).1,
       ms.map (fun x => (msplit x).2) ++ (renderRouteLoop p l).2.1,
       (renderRouteLoop p l).2.2) := by
  induction ms with
  | nil => simp
  | cons m rest ih =>
      have hm := h m (by simp)
      have ihh := ih fun x hx => h x (by simp [hx])
      simp only [List.cons_append, renderRouteLoop, hm]
      rw [if_neg (by simp)]
      simp only [List.append_eq]
      rw [ihh]
      simp

theorem renderRouteLoop_break (p m : Str) (rest : List Str)
    (hp : p ≠ []) (hm : (msplit m).1 ≠ p) :
    renderRouteLoop p (m :: rest) = (p, m :: rest, true) := by
  simp only [renderRouteLoop]
  rw [if_pos ⟨fun h => hm h.symm, hp⟩]

/-- A channel item the merge loop skips: a transport error, a nil
response, a non-200 status, or an undecodable body. -/
def itemFailed {α : Type} (it : RespItem α) : Bool :=
  it.err ||
    match it.resp with
    | none => true
    | some r => decide (r.status ≠ 200) || r.chunk.isNone

theorem mergeLoop_fail {α : Type} (prepend : Str → α → α) :
    ∀ items : List (RespItem α), (∀ it ∈ items, itemFailed it = true) →
      mergeLoop prepend items = []
  | [], _ => by simp [mergeLoop]
  | it :: rest, h => by
      have hit := h it (by simp)
      have hrest := mergeLoop_fail prepend rest fun x hx => h x (by simp [hx])
      simp only [itemFailed, Bool.or_eq_true] at hit
      simp only [mergeLoop]
      rcases hit with he | hresp
      · rw [if_pos he, hrest]
      · by_cases he : it.err
        · rw [if_pos he, hrest]
        · rw [if_neg he]
          cases hr : it.resp with
          | none => exact hrest
          | some r =>
              rw [hr] at hresp
              dsimp only
              simp only [Bool.or_eq_true, decide_eq_true_eq,
                Option.isNone_iff_eq_none] at hresp
              by_cases hst : r.status = 200
              · rcases hresp with hs | hc
                · exact absurd hst hs
                · rw [if_neg (by simp [hst]), hc]
                  exact hrest
              · rw [if_pos hst]
                exact hrest

theorem chanBuffered_le_count : ∀ (trace : List Bool) (b : Nat),
    trace.foldl (fun b ev => if ev then b + 1 else b - 1) b ≤ b + trace.count true
  | [], b => by simp
  | ev :: rest, b => by
      rw [List.foldl_cons]
      cases ev
      · have hf := chanBuffered_le_count rest (b - 1)
        have hc : (false :: rest).count true = rest.count true := by simp
        rw [hc]
        exact le_trans hf (by omega)
      · have ht := chanBuffered_le_count rest (b + 1)
        have hc : (true :: rest).count true = rest.count true + 1 := by simp
        rw [hc]
        exact le_trans ht (by omega)

mutual
theorem setExpr_none : ∀ (e : Expr) (d : Nat) (v : Str),
    setExpr e d none v = (e, none)
  | e, d, v => by
    by_cases hd : d > 200
    · rw [setExpr.eq_def]; simp [hd]
    · match e with
      | .metric m => rw [setExpr.eq_def]; simp [hd]
      | .value w => rw [setExpr.eq_def]; simp [hd]
      | .query e =>
          rw [setExpr.eq_def]
          simp only [if_neg hd]
          rw [setExpr_none e (d + 1) v]
      | .func n args =>
          rw [setExpr.eq_def]
          simp only [if_neg hd]
          rw [setArgs_none args (d + 1) v]

theorem setArgs_none : ∀ (args : List Expr) (d : Nat) (v : Str),
    setArgs args d none v = (args, none)
  | [], d, v => by rw [setArgs.eq_def]
  | a :: rest, d, v => by
      rw [setArgs.eq_def]
      simp only
      rw [setExpr_none a d v]
      simp only
      rw [setArgs_none rest d v]
end

mutual
theorem setExpr_skip : ∀ (e : Expr) (d i : Nat) (v : Str),
    (metricsExpr e d).length ≤ i →
    setExpr e d (some i) v = (e, some (i - (metricsExpr e d).length))
  | e, d, i, v, h => by
    by_cases hd : d > 200
    · rw [metricsExpr.eq_def]
      rw [setExpr.eq_def]
      simp [hd]
    · match e with
      | .metric m =>
          rw [metricsExpr.eq_def] at h ⊢
          simp only [if_neg hd] at h ⊢
          simp only [List.length_cons, List.length_nil] at h
          rw [setExpr.eq_def]
          simp only [if_neg hd]
          match i, h with
          | k + 1, _ => simp
      | .value w =>
          rw [metricsExpr.eq_def]
          rw [setExpr.eq_def]
          simp [hd]
      | .query e =>
          rw [metricsExpr.eq_def] at h ⊢
          simp only [if_neg hd] at h ⊢
          rw [setExpr.eq_def]
          simp only [if_neg hd]
          rw [setExpr_skip e (d + 1) i v h]
      | .func n args =>
          rw [metricsExpr.eq_def] at h ⊢
          simp only [if_neg hd] at h ⊢
          rw [setExpr.eq_def]
          simp only [if_neg hd]
          rw [setArgs_skip args (d + 1) i v h]

theorem setArgs_skip : ∀ (args : List Expr) (d i : Nat) (v : Str),
    (metricsArgs args d).length ≤ i →
    setArgs args d (some i) v = (args, some (i - (metricsArgs args d).length))
  | [], d, i, v, h => by
      rw [setArgs.eq_def]
      simp [metricsArgs]
  | a :: rest, d, i, v, h => by
      simp only [metricsArgs, List.length_append] at h ⊢
      have hla : (metricsExpr a d).length ≤ i := by omega
      rw [setArgs.eq_def]
      simp only
      rw [setExpr_skip a d i v hla]
      simp only
      rw [setArgs_skip rest d (i - (metricsExpr a d).length) v (by omega)]
      have : i - (metricsExpr a d).length - (metricsArgs rest d).length =
          i - ((metricsExpr a d).length + (metricsArgs rest d).length) := by omega
      rw [this]
end

mutual
theorem metricsExpr_dfs : ∀ (e : Expr) (d : Nat), d + exprHeight e ≤ 200 →
    metricsExpr e d = dfsMetrics e
  | e, d, h => by
    have hd : ¬ d > 200 := by omega
    match e with
    | .metric m => rw [metricsExpr.eq_def]; simp [hd, dfsMetrics]
    | .value w => rw [metricsExpr.eq_def]; simp [hd, dfsMetrics]
    | .query e =>
        rw [metricsExpr.eq_def]
        simp only [if_neg hd, dfsMetrics]
        exact metricsExpr_dfs e (d + 1) (by simp only [exprHeight] at h; omega)
    | .func n args =>
        rw [metricsExpr.eq_def]
        simp only [if_neg hd, dfsMetrics]
        exact metricsArgs_dfs args (d + 1) (by simp only [exprHeight] at h; omega)

theorem metricsArgs_dfs : ∀ (args : List Expr) (d : Nat), d + argsHeight args ≤ 200 →
    metricsArgs args d = dfsArgs args
  | [], d, h => by simp [metricsArgs, dfsArgs]
  | a :: rest, d, h => by
      simp only [argsHeight] at h
      simp only [metricsArgs, dfsArgs]
      rw [metricsExpr_dfs a d (by omega), metricsArgs_dfs rest d (by omega)]
end

mutual
theorem render_set_expr : ∀ (e : Expr) (d i : Nat) (m v : Str),
    (metricsExpr e d).get? i = some m →
    d + 1 + exprHeight e ≤ 200 →
    ∃ pre suf,
      marshalExpr e (d + 1) = pre ++ m ++ suf ∧
      marshalExpr (setExpr e d (some i) v).1 (d + 1) = pre ++ v ++ suf ∧
      (setExpr e d (some i) v).2 = none
  | e, d, i, m, v, hm, hb => by
    have hd : ¬ d > 200 := by omega
    have hd1 : ¬ d + 1 > 200 := by omega
    match e with
    | .metric m' =>
        rw [metricsExpr.eq_def] at hm
        simp only [if_neg hd] at hm
        match i, hm with
        | 0, hm0 =>
            have hmm : m' = m := by simpa using hm0
            have hset : setExpr (.metric m') d (some 0) v = (.metric v, none) := by
              rw [setExpr.eq_def]; simp [hd]
            refine ⟨[], [], ?_, ?_, ?_⟩
            · rw [marshalExpr.eq_def]
              simp [hd1, hmm]
            · rw [hset]
              rw [marshalExpr.eq_def]
              simp [hd1]
            · rw [hset]
        | i' + 1, hmi => simp at hmi
    | .value w =>
        rw [metricsExpr.eq_def] at hm
        simp [hd] at hm
    | .query e' =>
        rw [metricsExpr.eq_def] at hm
        simp only [if_neg hd] at hm
        obtain ⟨pre, suf, h1, h2, h3⟩ :=
          render_set_expr e' (d + 1) i m v hm (by simp only [exprHeight] at hb; omega)
        have hset : setExpr (.query e') d (some i) v =
            (.query (setExpr e' (d + 1) (some i) v).1,
             (setExpr e' (d + 1) (some i) v).2) := by
          rw [setExpr.eq_def]; simp [hd]
        refine ⟨pre, suf, ?_, ?_, ?_⟩
        · rw [marshalExpr.eq_def]
          simp only [if_neg hd1]
          exact h1
        · rw [hset]
          simp only
          rw [marshalExpr.eq_def]
          simp only [if_neg hd1]
          exact h2
        · rw [hset]
          exact h3
    | .func n args =>
        rw [metricsExpr.eq_def] at hm
        simp only [if_neg hd] at hm
        obtain ⟨pre, suf, h1, h2, h3⟩ :=
          render_set_args args (d + 1) i m v hm (by simp only [exprHeight] at hb; omega)
        have hset : setExpr (.func n args) d (some i) v =
            (.func n (setArgs args (d + 1) (some i) v).1,
             (setArgs args (d + 1) (some i) v).2) := by
          rw [setExpr.eq_def]; simp [hd]
        refine ⟨n ++ '(' :: pre, suf ++ [')'], ?_, ?_, ?_⟩
        · rw [marshalExpr.eq_def]
          simp only [if_neg hd1]
          rw [h1]
          simp
        · rw [hset]
          simp only
          rw [marshalExpr.eq_def]
          simp only [if_neg hd1]
          rw [h2]
          simp
        · rw [hset]
          exact h3

theorem render_set_args : ∀ (args : List Expr) (d i : Nat) (m v : Str),
    (metricsArgs args d).get? i = some m →
    d + 1 + argsHeight args ≤ 200 →
    ∃ pre suf,
      marshalArgs args (d + 1) = pre ++ m ++ suf ∧
      marshalArgs (setArgs args d (some i) v).1 (d + 1) = pre ++ v ++ suf ∧
      (setArgs args d (some i) v).2 = none
  | [], d, i, m, v, hm, hb => by simp [metricsArgs] at hm
  | a :: rest, d, i, m, v, hm, hb => by
      simp only [metricsArgs] at hm
      simp only [argsHeight] at hb
      by_cases hi : i < (metricsExpr a d).length
      · rw [List.get?_append hi] at hm
        obtain ⟨pre, suf, h1, h2, h3⟩ :=
          render_set_expr a d i m v hm (by omega)
        have hset2 : setArgs (a :: rest) d (some i) v =
            ((setExpr a d (some i) v).1 :: rest, none) := by
          rw [setArgs.eq_def]
          simp only
          rw [h3, setArgs_none rest d v]
        match rest with
        | [] =>
            refine ⟨pre, suf, ?_, ?_, ?_⟩
            · simp only [marshalArgs]
              exact h1
            · rw [hset2]
              simp only [marshalArgs]
              exact h2
            · rw [hset2]
        | b :: bs =>
            refine ⟨pre, suf ++ ',' :: ' ' :: marshalArgs (b :: bs) (d + 1), ?_, ?_, ?_⟩
            · simp only [marshalArgs]
              rw [h1]
              simp
            · rw [hset2]
              simp only [marshalArgs]
              rw [h2]
              simp
            · rw [hset2]
      · push_neg at hi
        rw [List.get?_append_right hi] at hm
        have hskip := setExpr_skip a d i v hi
        obtain ⟨pre2, suf2, h1, h2, h3⟩ :=
          render_set_args rest d (i - (metricsExpr a d).length) m v hm (by omega)
        match rest with
        | [] => simp [metricsArgs] at hm
        | b :: bs =>
            have hset2 : setArgs (a :: b :: bs) d (some i) v =
                (a :: (setArgs (b :: bs) d (some (i - (metricsExpr a d).length)) v).1,
                 (setArgs (b :: bs) d (some (i - (metricsExpr a d).length)) v).2) := by
              rw [setArgs.eq_def]
              simp only
              rw [hskip]
            have htail :
                (setArgs (b :: bs) d (some (i - (metricsExpr a d).length)) v).1 =
                (setExpr b d (some (i - (metricsExpr a d).length)) v).1 ::
                  (setArgs bs d
                    (setExpr b d (some (i - (metricsExpr a d).length)) v).2 v).1 := by
              rw [setArgs.eq_def]
            refine ⟨marshalExpr a (d + 1) ++ ',' :: ' ' :: pre2, suf2, ?_, ?_, ?_⟩
            · simp only [marshalArgs]
              rw [h1]
              simp
            · rw [hset2]
              simp only
              rw [htail]
              simp only [marshalArgs]
              rw [← htail, h2]
              simp
            · rw [hset2]
              simp only
              exact h3
end

theorem takeWhile_append_notHead (p : Char → Bool) :
    ∀ (xs ys : Str), (∀ x ∈ xs, p x = true) → (∀ b bs, ys = b :: bs → p b = false) →
      (xs ++ ys).takeWhile p = xs ∧ (xs ++ ys).dropWhile p = ys := by
  intro xs
  induction xs with
  | nil =>
      intro ys hxs hys
      cases ys with
      | nil => simp
      | cons b bs =>
          simp [List.takeWhile_cons, List.dropWhile_cons, hys b bs rfl]
  | cons x xs ih =>
      intro ys hxs hys
      have hx := hxs x (by simp)
      have ihh := ih ys (fun a ha => hxs a (by simp [ha])) hys
      constructor
      · simp [List.takeWhile_cons, hx, ihh.1]
      · simp [List.dropWhile_cons, hx, ihh.2]

theorem head_dropWhile_false (p : Char → Bool) :
    ∀ (l : Str) (g : Char) (B : Str), l.dropWhile p = g :: B → p g = false := by
  intro l
  induction l with
  | nil => intro g B h; simp at h
  | cons a as ih =>
      intro g B h
      by_cases ha : p a
      · rw [List.dropWhile_cons, if_pos ha] at h
        exact ih g B h
      · rw [List.dropWhile_cons, if_neg ha] at h
        obtain ⟨rfl, -⟩ := List.cons.injEq .. ▸ h
        simpa using ha

theorem alpha_facts (c : Char) (hc : isIn c [charAlpha, "_".toList] = true) :
    isIn c [charNumeric, "+-".toList] = false ∧
    isIn c [charWhitespace] = false ∧
    isIn c [charIdentifier] = true := by
  have hm : c ∈ charAlpha ++ "_".toList := by
    have h2 : c ∈ charAlpha ∨ c ∈ "_".toList := by simpa [isIn] using hc
    simpa [List.mem_append] using h2
  have hall : (charAlpha ++ "_".toList).all (fun c =>
      !isIn c [charNumeric, "+-".toList] &&
      (!isIn c [charWhitespace] && isIn c [charIdentifier])) = true := by decide
  have h2 := List.all_eq_true.mp hall c hm
  simp only [Bool.and_eq_true, Bool.not_eq_true'] at h2
  exact ⟨h2.1, h2.2.1, h2.2.2⟩

theorem stardot_facts (g : Char) (hg : isIn g ["*.".toList] = true) :
    isIn g [charWhitespace, charDelim] = false ∧
    isIn g [charGlob, charDot] = true ∧
    isIn g [charIdentifier] = false := by
  have hm : g ∈ "*.".toList := by simpa [isIn] using hg
  have hall : ("*.".toList).all (fun c =>
      !isIn c [charWhitespace, charDelim] &&
      (isIn c [charGlob, charDot] && !isIn c [charIdentifier])) = true := by decide
  have h2 := List.all_eq_true.mp hall g hm
  simp only [Bool.and_eq_true, Bool.not_eq_true'] at h2
  exact ⟨h2.1, h2.2.1, h2.2.2⟩

theorem delim_facts (b : Char) (hb : isIn b [charDelim] = true) :
    isIn b [charNumeric, "+-".toList] = false ∧
    isIn b [charWhitespace] = false ∧
    isIn b [charIdentifier] = false ∧
    isIn b [charGlob] = false ∧
    isIn b [charIdentifier, "*.".toList] = false ∧
    isIn b [charNumeric] = false ∧
    isIn b [charWhitespace, charDelim] = true ∧
    b ≠ '.' ∧ b ≠ '\x7b' ∧ b ≠ '[' := by
  have hm : b ∈ charDelim := by simpa [isIn] using hb
  have hall : charDelim.all (fun c =>
      !isIn c [charNumeric, "+-".toList] &&
      (!isIn c [charWhitespace] &&
      (!isIn c [charIdentifier] &&
      (!isIn c [charGlob] &&
      (!isIn c [charIdentifier, "*.".toList] &&
      (!isIn c [charNumeric] &&
      (isIn c [charWhitespace, charDelim] &&
      (!decide (c = '.') &&
      (!decide (c = '\x7b') && !decide (c = '[')))))))))) = true := by decide
  have h2 := List.all_eq_true.mp hall b hm
  simp only [Bool.and_eq_true, Bool.not_eq_true', decide_eq_false_iff_not] at h2
  exact ⟨h2.1, h2.2.1, h2.2.2.1, h2.2.2.2.1, h2.2.2.2.2.1, h2.2.2.2.2.2.1,
    h2.2.2.2.2.2.2.1, h2.2.2.2.2.2.2.2.1, h2.2.2.2.2.2.2.2.2.1, h2.2.2.2.2.2.2.2.2.2⟩

theorem quote_facts (q : Char) (hq : isIn q [charQuote] = true) :
    isIn q [charNumeric, "+-".toList] = false ∧
    isIn q [charWhitespace] = false ∧
    isIn q [charIdentifier] = false ∧
    isIn q [charGlob] = false ∧
    isIn q [charDelim] = false := by
  have hm : q ∈ charQuote := by simpa [isIn] using hq
  have hall : charQuote.all (fun c =>
      !isIn c [charNumeric, "+-".toList] &&
      (!isIn c [charWhitespace] &&
      (!isIn c [charIdentifier] &&
      (!isIn c [charGlob] && !isIn c [charDelim])))) = true := by decide
  have h2 := List.all_eq_true.mp hall q hm
  simp only [Bool.and_eq_true, Bool.not_eq_true'] at h2
  exact ⟨h2.1, h2.2.1, h2.2.2.1, h2.2.2.2.1, h2.2.2.2.2⟩

theorem ident_stardot_split (x : Char)
    (h : isIn x [charIdentifier, "*.".toList] = true)
    (hni : isIn x [charIdentifier] = false) : isIn x ["*.".toList] = true := by
  simp only [isIn, List.any_cons, List.any_nil, Bool.or_false, Bool.or_eq_true,
    decide_eq_true_eq] at h hni ⊢
  rcases h with h | h
  · exact absurd h (by simpa using hni)
  · exact h

theorem globConsume_append : ∀ (n : Nat) (bs : Str), bs.length ≤ n →
    ∀ (q : Char) (w : Str), globConsume q bs = some (bs, []) →
      globConsume q (bs ++ w) = some (bs, w) := by
  intro n
  induction n with
  | zero =>
      intro bs hle q w h
      match bs with
      | [] => simp [globConsume] at h
  | succ n ih =>
      intro bs hle q w h
      match bs with
      | [] => simp [globConsume] at h
      | c :: cs =>
          simp only [List.length_cons] at hle
          rw [globConsume.eq_def] at h
          dsimp only at h
          simp only [List.cons_append]
          rw [globConsume.eq_def]
          dsimp only
          split at h
          · rename_i hc
            match cs, hle, h with
            | [], hle, h => simp at h
            | c2 :: cs2, hle, h =>
                simp only [Option.map_eq_some'] at h
                obtain ⟨⟨r1, r2⟩, hg, heq⟩ := h
                simp only [Prod.mk.injEq, List.cons.injEq, true_and] at heq
                obtain ⟨hr1, hr2⟩ := heq
                subst hr1
                subst hr2
                have hrec := ih r1 (by simp only [List.length_cons] at hle; omega) q w hg
                rw [if_pos hc]
                simp only [List.cons_append]
                simp [hrec]
          · rename_i hc
            split at h
            · rename_i hq
              simp only [Option.some.injEq, Prod.mk.injEq] at h
              obtain ⟨h1, h2⟩ := h
              subst h2
              rw [if_neg hc, if_pos hq]
              rfl
            · rename_i hq
              simp only [Option.map_eq_some'] at h
              obtain ⟨⟨r1, r2⟩, hg, heq⟩ := h
              simp only [Prod.mk.injEq, List.cons.injEq, true_and] at heq
              obtain ⟨hr1, hr2⟩ := heq
              subst hr1
              subst hr2
              have hrec := ih r1 (by omega) q w hg
              rw [if_neg hc, if_neg hq]
              simp [hrec]

theorem scanMetric_clean (acc B w : Str)
    (hB : B.all (isIn · [charIdentifier, "*.".toList]) = true)
    (hw : boundaryB w = true) :
    scanMetric acc (B ++ w) = .ok (.metric (acc ++ B), w) := by
  have hBmem : ∀ x ∈ B, (isIn · [charIdentifier, "*.".toList]) x = true :=
    fun x hx => List.all_eq_true.mp hB x hx
  have hnh : ∀ b bs, w = b :: bs → (isIn · [charIdentifier, "*.".toList]) b = false := by
    intro b bs hbw
    subst hbw
    simp only [boundaryB] at hw
    exact (delim_facts b hw).2.2.2.2.1
  obtain ⟨htake, hdrop⟩ :=
    takeWhile_append_notHead (isIn · [charIdentifier, "*.".toList]) B w hBmem hnh
  rw [scanMetric.eq_def]
  dsimp only
  split
  · rename_i cs hr
    rw [hdrop] at hr
    cases w with
    | nil => simp at hr
    | cons b bs =>
        simp only [boundaryB] at hw
        obtain ⟨rfl, -⟩ := List.cons.injEq .. ▸ hr
        exact absurd hw (by decide)
  · rename_i cs hr
    rw [hdrop] at hr
    cases w with
    | nil => simp at hr
    | cons b bs =>
        simp only [boundaryB] at hw
        obtain ⟨rfl, -⟩ := List.cons.injEq .. ▸ hr
        exact absurd hw (by decide)
  · rename_i hr
    rw [hdrop] at hr
    rw [htake]
    subst hr
    simp
  · rename_i c cs hr
    rw [hdrop] at hr
    cases w with
    | nil => simp at hr
    | cons b bs =>
        simp only [boundaryB] at hw
        obtain ⟨hbc, hbs⟩ := List.cons.injEq .. ▸ hr
        subst hbc
        subst hbs
        rw [if_pos (delim_facts b hw).2.2.2.2.2.2.1]
        rw [htake]

theorem scanName_word (n : Str) (b : Char) (bs : Str)
    (hall : ∀ x ∈ n, isIn x [charIdentifier] = true)
    (hdel : isIn b [charWhitespace, charDelim] = true)
    (hnb : isIn b [charIdentifier] = false) :
    scanName (n ++ b :: bs) = .ok (.word n, b :: bs) := by
  obtain ⟨htake, hdrop⟩ := takeWhile_append_notHead (isIn · [charIdentifier]) n (b :: bs)
    hall (by intro b' bs' h; obtain ⟨rfl, -⟩ := List.cons.injEq .. ▸ h; exact hnb)
  rw [scanName.eq_def]
  simp only [htake, hdrop]
  rw [if_pos hdel]

theorem globConsume_split : ∀ (n : Nat) (cs : Str), cs.length ≤ n →
    ∀ (q : Char) (tk rest : Str),
      globConsume q cs = some (tk, rest) → tk ++ rest = cs := by
  intro n
  induction n with
  | zero =>
      intro cs hle q tk rest h
      match cs with
      | [] => simp [globConsume] at h
  | succ n ih =>
      intro cs hle q tk rest h
      match cs with
      | [] => simp [globConsume] at h
      | c :: cs2 =>
          simp only [List.length_cons] at hle
          rw [globConsume.eq_def] at h
          dsimp only at h
          split at h
          · rename_i hc
            match cs2, hle, h with
            | [], hle, h => simp at h
            | c2 :: cs3, hle, h =>
                simp only [Option.map_eq_some'] at h
                obtain ⟨⟨r1, r2⟩, hg, heq⟩ := h
                simp only [Prod.mk.injEq] at heq
                obtain ⟨htk, hrest⟩ := heq
                subst htk
                subst hrest
                have hrec := ih cs3 (by simp only [List.length_cons] at hle; omega) q r1 r2 hg
                simp only [List.cons_append, hrec]
          · rename_i hc
            split at h
            · rename_i hq
              simp only [Option.some.injEq, Prod.mk.injEq] at h
              obtain ⟨h1, h2⟩ := h
              subst h2
              rw [← h1]
              simp
            · rename_i hq
              simp only [Option.map_eq_some'] at h
              obtain ⟨⟨r1, r2⟩, hg, heq⟩ := h
              simp only [Prod.mk.injEq] at heq
              obtain ⟨htk, hrest⟩ := heq
              subst htk
              subst hrest
              have hrec := ih cs2 (by omega) q r1 r2 hg
              simp only [List.cons_append, hrec]

theorem globConsume_append_gen : ∀ (n : Nat) (cs : Str), cs.length ≤ n →
    ∀ (q : Char) (tk rest w : Str),
      globConsume q cs = some (tk, rest) →
      globConsume q (cs ++ w) = some (tk, rest ++ w) := by
  intro n
  induction n with
  | zero =>
      intro cs hle q tk rest w h
      match cs with
      | [] => simp [globConsume] at h
  | succ n ih =>
      intro cs hle q tk rest w h
      match cs with
      | [] => simp [globConsume] at h
      | c :: cs2 =>
          simp only [List.length_cons] at hle
          rw [globConsume.eq_def] at h
          dsimp only at h
          simp only [List.cons_append]
          rw [globConsume.eq_def]
          dsimp only
          split at h
          · rename_i hc
            match cs2, hle, h with
            | [], hle, h => simp at h
            | c2 :: cs3, hle, h =>
                simp only [Option.map_eq_some'] at h
                obtain ⟨⟨r1, r2⟩, hg, heq⟩ := h
                simp only [Prod.mk.injEq] at heq
                obtain ⟨htk, hrest⟩ := heq
                subst htk
                subst hrest
                have hrec := ih cs3 (by simp only [List.length_cons] at hle; omega) q r1 r2 w hg
                rw [if_pos hc]
                simp only [List.cons_append]
                simp [hrec]
          · rename_i hc
            split at h
            · rename_i hq
              simp only [Option.some.injEq, Prod.mk.injEq] at h
              obtain ⟨h1, h2⟩ := h
              subst h2
              rw [if_neg hc, if_pos hq]
              rw [← h1]
            · rename_i hq
              simp only [Option.map_eq_some'] at h
              obtain ⟨⟨r1, r2⟩, hg, heq⟩ := h
              simp only [Prod.mk.injEq] at heq
              obtain ⟨htk, hrest⟩ := heq
              subst htk
              subst hrest
              have hrec := ih cs2 (by omega) q r1 r2 w hg
              rw [if_neg hc, if_neg hq]
              simp [hrec]

theorem dropWhile_append_mid (p : Char → Bool) :
    ∀ (l : Str) (x : Char) (xs w : Str), l.dropWhile p = x :: xs →
      (l ++ w).dropWhile p = x :: (xs ++ w) ∧
      (l ++ w).takeWhile p = l.takeWhile p := by
  intro l
  induction l with
  | nil => intro x xs w h; simp at h
  | cons a as ih =>
      intro x xs w h
      by_cases ha : p a
      · rw [List.dropWhile_cons, if_pos ha] at h
        obtain ⟨hd, ht⟩ := ih x xs w h
        constructor
        · rw [List.cons_append, List.dropWhile_cons, if_pos ha]
          exact hd
        · rw [List.cons_append, List.takeWhile_cons, if_pos ha,
            List.takeWhile_cons, if_pos ha, ht]
      · rw [List.dropWhile_cons, if_neg ha] at h
        obtain ⟨hax, hxs⟩ := List.cons.injEq .. ▸ h
        subst hax
        subst hxs
        constructor
        · rw [List.cons_append, List.dropWhile_cons, if_neg ha]
        · rw [List.cons_append, List.takeWhile_cons, if_neg ha,
            List.takeWhile_cons, if_neg ha]

theorem scanMetric_full : ∀ (n : Nat) (rest : Str), rest.length ≤ n →
    metOK rest = true → ∀ (acc w : Str), boundaryB w = true →
      scanMetric acc (rest ++ w) = .ok (.metric (acc ++ rest), w) := by
  intro n
  induction n with
  | zero =>
      intro rest hle hmet acc w hw
      have h0 : rest = [] := by
        cases rest with
        | nil => rfl
        | cons a as => simp at hle
      subst h0
      have h1 := scanMetric_clean acc [] w (by simp) hw
      simpa using h1
  | succ n ih =>
      intro rest hle hmet acc w hw
      rw [metOK.eq_def] at hmet
      split at hmet
      · rename_i cs hr
        split at hmet
        · exact absurd hmet (by simp)
        · rename_i consumed rest2 hg
          have hsplit : rest.takeWhile (isIn · [charIdentifier, "*.".toList]) ++
              rest.dropWhile (isIn · [charIdentifier, "*.".toList]) = rest :=
            List.takeWhile_append_dropWhile (isIn · [charIdentifier, "*.".toList]) rest
          rw [hr] at hsplit
          have hcs_split := globConsume_split cs.length cs le_rfl '\x7d' consumed rest2 hg
          have hlen1 := dropWhile_length_le (isIn · [charIdentifier, "*.".toList]) rest
          rw [hr] at hlen1
          have hlen2 := globConsume_lt cs.length cs le_rfl '\x7d' consumed rest2 hg
          obtain ⟨hdmid, htmid⟩ :=
            dropWhile_append_mid (isIn · [charIdentifier, "*.".toList]) rest '\x7b' cs w hr
          rw [scanMetric.eq_def]
          dsimp only
          split
          · rename_i cs2 hr2
            rw [hdmid] at hr2
            obtain ⟨-, hcs2⟩ := List.cons.injEq .. ▸ hr2
            subst hcs2
            have hgw := globConsume_append_gen cs.length cs le_rfl '\x7d' consumed rest2 w hg
            split
            · rename_i hgnone
              rw [hgw] at hgnone
              exact absurd hgnone (by simp)
            · rename_i consumed2 rest3 hg2
              rw [hgw] at hg2
              simp only [Option.some.injEq, Prod.mk.injEq] at hg2
              obtain ⟨hc2, hr3⟩ := hg2
              subst hc2
              subst hr3
              rw [htmid]
              have hrec := ih rest2
                (by simp only [List.length_cons] at hlen1; omega) hmet
                ((acc ++ rest.takeWhile (isIn · [charIdentifier, "*.".toList])) ++
                  '\x7b' :: consumed) w hw
              rw [hrec]
              simp only [List.append_assoc, List.cons_append]
              rw [hcs_split, hsplit]
          · rename_i cs2 hr2
            rw [hdmid] at hr2
            exact absurd hr2 (by simp)
          · rename_i hr2
            rw [hdmid] at hr2
            exact absurd hr2 (by simp)
          · rename_i hne1 hne2 hr2
            rw [hdmid] at hr2
            obtain ⟨hc, -⟩ := List.cons.injEq .. ▸ hr2
            exact (hne1 hc.symm).elim
      · rename_i cs hr
        split at hmet
        · exact absurd hmet (by simp)
        · rename_i consumed rest2 hg
          have hsplit : rest.takeWhile (isIn · [charIdentifier, "*.".toList]) ++
              rest.dropWhile (isIn · [charIdentifier, "*.".toList]) = rest :=
            List.takeWhile_append_dropWhile (isIn · [charIdentifier, "*.".toList]) rest
          rw [hr] at hsplit
          have hcs_split := globConsume_split cs.length cs le_rfl ']' consumed rest2 hg
          have hlen1 := dropWhile_length_le (isIn · [charIdentifier, "*.".toList]) rest
          rw [hr] at hlen1
          have hlen2 := globConsume_lt cs.length cs le_rfl ']' consumed rest2 hg
          obtain ⟨hdmid, htmid⟩ :=
            dropWhile_append_mid (isIn · [charIdentifier, "*.".toList]) rest '[' cs w hr
          rw [scanMetric.eq_def]
          dsimp only
          split
          · rename_i cs2 hr2
            rw [hdmid] at hr2
            exact absurd hr2 (by simp)
          · rename_i cs2 hr2
            rw [hdmid] at hr2
            obtain ⟨-, hcs2⟩ := List.cons.injEq .. ▸ hr2
            subst hcs2
            have hgw := globConsume_append_gen cs.length cs le_rfl ']' consumed rest2 w hg
            split
            · rename_i hgnone
              rw [hgw] at hgnone
              exact absurd hgnone (by simp)
            · rename_i consumed2 rest3 hg2
              rw [hgw] at hg2
              simp only [Option.some.injEq, Prod.mk.injEq] at hg2
              obtain ⟨hc2, hr3⟩ := hg2
              subst hc2
              subst hr3
              rw [htmid]
              have hrec := ih rest2
                (by simp only [List.length_cons] at hlen1; omega) hmet
                ((acc ++ rest.takeWhile (isIn · [charIdentifier, "*.".toList])) ++
                  '[' :: consumed) w hw
              rw [hrec]
              simp only [List.append_assoc, List.cons_append]
              rw [hcs_split, hsplit]
          · rename_i hr2
            rw [hdmid] at hr2
            exact absurd hr2 (by simp)
          · rename_i hne1 hne2 hr2
            rw [hdmid] at hr2
            obtain ⟨hc, -⟩ := List.cons.injEq .. ▸ hr2
            exact (hne2 hc.symm).elim
      · rename_i hr
        have hall : rest.all (isIn · [charIdentifier, "*.".toList]) = true :=
          List.all_eq_true.mpr (List.dropWhile_eq_nil_iff.mp hr)
        exact scanMetric_clean acc rest w hall hw
      · rename_i c cs hr
        exact absurd hmet (by simp)

theorem scanName_metric (A : Str) (g : Char) (B w : Str)
    (hA : ∀ x ∈ A, isIn x [charIdentifier] = true)
    (hg : isIn g ["*.".toList] = true)
    (hB : metOK B = true)
    (hw : boundaryB w = true) :
    scanName (A ++ g :: (B ++ w)) = .ok (.metric (A ++ g :: B), w) := by
  obtain ⟨hgws, hggd, hgni⟩ := stardot_facts g hg
  obtain ⟨htake, hdrop⟩ := takeWhile_append_notHead (isIn · [charIdentifier]) A (g :: (B ++ w))
    hA (by intro b' bs' h; obtain ⟨rfl, -⟩ := List.cons.injEq .. ▸ h; exact hgni)
  rw [scanName.eq_def]
  simp only [htake, hdrop]
  rw [if_neg (by simp [hgws]), if_pos hggd]
  rw [scanMetric_full B.length B le_rfl hB (A ++ [g]) w hw]
  simp

theorem scanQuote_clean (q : Char) (body w : Str)
    (hg : globConsume q body = some (body, [])) :
    scanQuote ((q :: body) ++ w) = .ok (.str (q :: body), w) := by
  rw [scanQuote.eq_def]
  simp only [List.cons_append]
  have hga := globConsume_append body.length body le_rfl q w hg
  simp only [hga]

theorem mem_takeWhile_pred (p : Char → Bool) :
    ∀ (l : Str) (x : Char), x ∈ l.takeWhile p → p x = true := by
  intro l
  induction l with
  | nil => intro x hx; simp at hx
  | cons a as ih =>
      intro x hx
      by_cases ha : p a
      · rw [List.takeWhile_cons, if_pos ha] at hx
        rcases List.mem_cons.mp hx with rfl | hx2
        · exact ha
        · exact ih x hx2
      · rw [List.takeWhile_cons, if_neg ha] at hx
        simp at hx

theorem numTailEq (cs w : Str)
    (hshape : (match cs.dropWhile (isIn · [charNumeric]) with
        | [] => true
        | '.' :: ds2 => ds2.all (isIn · [charNumeric])
        | _ => false) = true)
    (hw : ∀ b bs, w = b :: bs → (isIn b [charNumeric] = false ∧ b ≠ '.')) :
    (cs ++ w).takeWhile (isIn · [charNumeric]) = cs.takeWhile (isIn · [charNumeric]) ∧
    ((cs ++ w).dropWhile (isIn · [charNumeric]) =
      cs.dropWhile (isIn · [charNumeric]) ++ w) ∧
    cs.takeWhile (isIn · [charNumeric]) ++ cs.dropWhile (isIn · [charNumeric]) = cs := by
  have hsplit : cs.takeWhile (isIn · [charNumeric]) ++
      cs.dropWhile (isIn · [charNumeric]) = cs :=
    List.takeWhile_append_dropWhile (isIn · [charNumeric]) cs
  cases hdw : cs.dropWhile (isIn · [charNumeric]) with
  | nil =>
      have hall : ∀ x ∈ cs, (isIn · [charNumeric]) x = true :=
        List.dropWhile_eq_nil_iff.mp hdw
      obtain ⟨ht2, hd2⟩ := takeWhile_append_notHead (isIn · [charNumeric]) cs w hall
        (fun b bs hb => (hw b bs hb).1)
      refine ⟨?_, ?_, ?_⟩
      · rw [ht2]
        have h2 := hsplit
        rw [hdw, List.append_nil] at h2
        rw [h2]
      · rw [hd2]
        simp
      · rw [hdw] at hsplit
        simpa using hsplit
  | cons d ds2 =>
      rw [hdw] at hshape hsplit
      have hdnum : (isIn · [charNumeric]) d = false :=
        head_dropWhile_false (isIn · [charNumeric]) cs d ds2 hdw
      have hcsA : ∀ x ∈ cs.takeWhile (isIn · [charNumeric]),
          (isIn · [charNumeric]) x = true := by
        intro x hx
        exact mem_takeWhile_pred (isIn · [charNumeric]) cs x hx
      have hrw : cs ++ w = cs.takeWhile (isIn · [charNumeric]) ++ (d :: (ds2 ++ w)) := by
        conv_lhs => rw [← hsplit]
        simp
      obtain ⟨ht2, hd2⟩ := takeWhile_append_notHead (isIn · [charNumeric])
        (cs.takeWhile (isIn · [charNumeric])) (d :: (ds2 ++ w)) hcsA
        (by intro b bs hb; obtain ⟨rfl, -⟩ := List.cons.injEq .. ▸ hb; exact hdnum)
      refine ⟨?_, ?_, hsplit⟩
      · rw [hrw, ht2]
      · rw [hrw, hd2]
        simp

theorem numParts_clean (c : Char) (cs w : Str)
    (hgood : goodNumber (c :: cs) = true)
    (hw : ∀ b bs, w = b :: bs → (isIn b [charNumeric] = false ∧ b ≠ '.')) :
    numParts ((c :: cs) ++ w) = (c :: cs, w) := by
  simp only [goodNumber, Bool.and_eq_true] at hgood
  obtain ⟨hc, hshape⟩ := hgood
  rw [numParts.eq_def]
  simp only [List.cons_append]
  by_cases hsign : c = '+' ∨ c = '-'
  · rw [if_pos hsign] at hshape
    rw [if_pos hsign]
    obtain ⟨htA, hdA, hsplit⟩ := numTailEq cs w hshape hw
    rw [htA, hdA]
    cases hdw : cs.dropWhile (isIn · [charNumeric]) with
    | nil =>
        have htcs : cs.takeWhile (isIn · [charNumeric]) = cs := by
          rw [hdw, List.append_nil] at hsplit
          exact hsplit
        simp only [List.nil_append]
        cases w with
        | nil => simp [htcs]
        | cons b bs =>
            have hbne := (hw b bs rfl).2
            split
            · rename_i cs3 heq
              obtain ⟨hb, -⟩ := List.cons.injEq .. ▸ heq
              exact absurd hb hbne
            · simp [htcs]
    | cons d ds2 =>
        rw [hdw] at hsplit
        split at hshape
        · rename_i heq
          rw [hdw] at heq
          exact absurd heq (by simp)
        · rename_i ds2x heq
          rw [hdw] at heq
          obtain ⟨hd, hds⟩ := List.cons.injEq .. ▸ heq
          subst hd
          rw [← hds] at hshape
          have hds2 : ∀ x ∈ ds2, (isIn · [charNumeric]) x = true :=
            List.all_eq_true.mp hshape
          obtain ⟨ht3, hd3⟩ := takeWhile_append_notHead (isIn · [charNumeric])
            ds2 w hds2 (fun b bs hb => (hw b bs hb).1)
          simp only [List.cons_append]
          rw [ht3, hd3]
          simp only [Prod.mk.injEq]
          refine ⟨?_, trivial⟩
          simp only [List.nil_append]
          rw [hsplit]
        · exact absurd hshape (by simp)
  · rw [if_neg hsign] at hshape
    rw [if_neg hsign]
    simp only [List.nil_append, ← List.cons_append]
    obtain ⟨htA, hdA, hsplit⟩ := numTailEq (c :: cs) w hshape hw
    rw [htA, hdA]
    cases hdw : (c :: cs).dropWhile (isIn · [charNumeric]) with
    | nil =>
        have htcs : (c :: cs).takeWhile (isIn · [charNumeric]) = c :: cs := by
          rw [hdw, List.append_nil] at hsplit
          exact hsplit
        simp only [List.nil_append]
        cases w with
        | nil => simp [htcs]
        | cons b bs =>
            have hbne := (hw b bs rfl).2
            split
            · rename_i cs3 heq
              obtain ⟨hb, -⟩ := List.cons.injEq .. ▸ heq
              exact absurd hb hbne
            · simp [htcs]
    | cons d ds2 =>
        rw [hdw] at hsplit
        split at hshape
        · rename_i heq
          rw [hdw] at heq
          exact absurd heq (by simp)
        · rename_i ds2x heq
          rw [hdw] at heq
          obtain ⟨hd, hds⟩ := List.cons.injEq .. ▸ heq
          subst hd
          rw [← hds] at hshape
          have hds2 : ∀ x ∈ ds2, (isIn · [charNumeric]) x = true :=
            List.all_eq_true.mp hshape
          obtain ⟨ht3, hd3⟩ := takeWhile_append_notHead (isIn · [charNumeric])
            ds2 w hds2 (fun b bs hb => (hw b bs hb).1)
          simp only [List.cons_append]
          rw [ht3, hd3]
          simp only [Prod.mk.injEq]
          refine ⟨?_, trivial⟩
          exact hsplit
        · exact absurd hshape (by simp)

theorem scanNumber_clean (c : Char) (cs : Str) (b : Char) (bs : Str)
    (hv : goodNumber (c :: cs) = true)
    (hb : isIn b [charDelim] = true) :
    scanNumber ((c :: cs) ++ b :: bs) = .ok (.number (c :: cs), b :: bs) := by
  obtain ⟨-, -, -, -, -, hbn, hbwd, hbdot, -, -⟩ := delim_facts b hb
  have hnp := numParts_clean c cs (b :: bs) hv
    (by intro b' bs' h; obtain ⟨rfl, -⟩ := List.cons.injEq .. ▸ h; exact ⟨hbn, hbdot⟩)
  rw [scanNumber]
  rw [hnp]
  rw [scanNumberTail.eq_def]
  dsimp only
  rw [if_pos hbwd]

theorem lexAll_ident_ok (c : Char) (cs : Str) (t : Tok) (rest : Str)
    (h1 : isIn c [charNumeric, "+-".toList] = false)
    (h2 : isIn c [charWhitespace] = false)
    (h3 : isIn c [charIdentifier] = true)
    (hscan : scanName (c :: cs) = .ok (t, rest)) :
    lexAll (c :: cs) = (lexAll rest).map (t :: ·) := by
  rw [lexAll.eq_def]
  dsimp only
  rw [dif_neg (by rw [h1]; simp), if_neg (by rw [h2]; simp), dif_pos h3]
  split
  · rename_i e heq
    rw [heq] at hscan
    exact absurd hscan (by simp)
  · rename_i t2 rest2 heq
    rw [heq] at hscan
    simp only [Except.ok.injEq, Prod.mk.injEq] at hscan
    obtain ⟨rfl, rfl⟩ := hscan
    rfl

theorem lexAll_glob_ok (c : Char) (cs : Str) (t : Tok) (rest : Str)
    (h1 : isIn c [charNumeric, "+-".toList] = false)
    (h2 : isIn c [charWhitespace] = false)
    (h3 : isIn c [charIdentifier] = false)
    (h4 : isIn c [charGlob] = true)
    (hscan : scanMetric [] (c :: cs) = .ok (t, rest)) :
    lexAll (c :: cs) = (lexAll rest).map (t :: ·) := by
  rw [lexAll.eq_def]
  dsimp only
  rw [dif_neg (by rw [h1]; simp), if_neg (by rw [h2]; simp), dif_neg (by rw [h3]; simp), dif_pos h4]
  split
  · rename_i e heq
    rw [heq] at hscan
    exact absurd hscan (by simp)
  · rename_i t2 rest2 heq
    rw [heq] at hscan
    simp only [Except.ok.injEq, Prod.mk.injEq] at hscan
    obtain ⟨rfl, rfl⟩ := hscan
    rfl

theorem lexAll_number_ok (c : Char) (cs : Str) (t : Tok) (rest : Str)
    (h1 : isIn c [charNumeric, "+-".toList] = true)
    (hscan : scanNumber (c :: cs) = .ok (t, rest)) :
    lexAll (c :: cs) = (lexAll rest).map (t :: ·) := by
  rw [lexAll.eq_def]
  dsimp only
  rw [dif_pos h1]
  split
  · rename_i e heq
    rw [heq] at hscan
    exact absurd hscan (by simp)
  · rename_i t2 rest2 heq
    rw [heq] at hscan
    simp only [Except.ok.injEq, Prod.mk.injEq] at hscan
    obtain ⟨rfl, rfl⟩ := hscan
    rfl

theorem lexAll_quote_ok (c : Char) (cs : Str) (t : Tok) (rest : Str)
    (h1 : isIn c [charNumeric, "+-".toList] = false)
    (h2 : isIn c [charWhitespace] = false)
    (h3 : isIn c [charIdentifier] = false)
    (h4 : isIn c [charGlob] = false)
    (h5 : isIn c [charDelim] = false)
    (h6 : isIn c [charQuote] = true)
    (hscan : scanQuote (c :: cs) = .ok (t, rest)) :
    lexAll (c :: cs) = (lexAll rest).map (t :: ·) := by
  rw [lexAll.eq_def]
  dsimp only
  rw [dif_neg (by rw [h1]; simp), if_neg (by rw [h2]; simp), dif_neg (by rw [h3]; simp),
    dif_neg (by rw [h4]; simp), if_neg (by rw [h5]; simp), if_pos h6]
  split
  · rename_i e heq
    rw [heq] at hscan
    exact absurd hscan (by simp)
  · rename_i t2 rest2 heq
    rw [heq] at hscan
    simp only [Except.ok.injEq, Prod.mk.injEq] at hscan
    obtain ⟨rfl, rfl⟩ := hscan
    rfl

theorem lexAll_delim (b : Char) (bs : Str) (hb : isIn b [charDelim] = true) :
    lexAll (b :: bs) = (lexAll bs).map (delimTok b :: ·) := by
  obtain ⟨h1, h2, h3, h4, -, -, -, -, -, -⟩ := delim_facts b hb
  rw [lexAll.eq_def]
  dsimp only
  rw [dif_neg (by rw [h1]; simp), if_neg (by rw [h2]; simp), dif_neg (by rw [h3]; simp),
    dif_neg (by rw [h4]; simp), if_pos hb]

theorem lexAll_ws_space (bs : Str) : lexAll (' ' :: bs) = lexAll bs := by
  rw [lexAll.eq_def]
  dsimp only
  rw [dif_neg (by decide), if_pos (by decide)]

theorem numpm_not_quote (c : Char) (hc : isIn c [charNumeric, "+-".toList] = true) :
    isIn c [charQuote] = false := by
  have hm : c ∈ charNumeric ++ "+-".toList := by
    have h2 : c ∈ charNumeric ∨ c ∈ "+-".toList := by simpa [isIn] using hc
    simpa [List.mem_append] using h2
  have hall : (charNumeric ++ "+-".toList).all (fun c => !isIn c [charQuote]) = true := by
    decide
  have h2 := List.all_eq_true.mp hall c hm
  simpa using h2

theorem numParts_split (m : Str) : (numParts m).1 ++ (numParts m).2 = m := by
  match m with
  | [] => rfl
  | c :: cs =>
      rw [numParts.eq_def]
      dsimp only
      by_cases hsign : c = '+' ∨ c = '-'
      · rw [if_pos hsign]
        dsimp only
        have hsp := List.takeWhile_append_dropWhile (isIn · [charNumeric]) cs
        split
        · rename_i cs2 heq
          have hsp2 := List.takeWhile_append_dropWhile (isIn · [charNumeric]) cs2
          dsimp only
          conv_rhs => rw [← hsp, heq, ← hsp2]
          simp
        · dsimp only
          conv_rhs => rw [← hsp]
          simp
      · rw [if_neg hsign]
        dsimp only
        have hsp := List.takeWhile_append_dropWhile (isIn · [charNumeric]) (c :: cs)
        split
        · rename_i cs2 heq
          have hsp2 := List.takeWhile_append_dropWhile (isIn · [charNumeric]) cs2
          dsimp only
          conv_rhs => rw [← hsp, heq, ← hsp2]
          simp
        · dsimp only
          conv_rhs => rw [← hsp]
          simp

theorem numParts_stop (c : Char) (cs w : Str)
    (hne : (numParts (c :: cs)).2 ≠ []) :
    numParts ((c :: cs) ++ w) = ((numParts (c :: cs)).1, (numParts (c :: cs)).2 ++ w) := by
  rw [numParts.eq_def, numParts.eq_def]
  rw [numParts.eq_def] at hne
  simp only [List.cons_append]
  dsimp only at hne ⊢
  by_cases hsign : c = '+' ∨ c = '-'
  · simp only [if_pos hsign] at hne ⊢
    cases hdw : cs.dropWhile (isIn · [charNumeric]) with
    | nil =>
        rw [hdw] at hne
        simp at hne
    | cons d ds2 =>
        obtain ⟨hdmid, htmid⟩ := dropWhile_append_mid (isIn · [charNumeric]) cs d ds2 w hdw
        rw [hdmid, htmid]
        rw [hdw] at hne
        by_cases hd : d = '.'
        · subst hd
          cases hdw2 : ds2.dropWhile (isIn · [charNumeric]) with
          | nil =>
              simp [hdw2] at hne
          | cons t T =>
              obtain ⟨hdmid2, htmid2⟩ :=
                dropWhile_append_mid (isIn · [charNumeric]) ds2 t T w hdw2
              simp [hdmid2, htmid2, hdw2]
        · split
          · rename_i cs2 heq
            obtain ⟨hd2, -⟩ := List.cons.injEq .. ▸ heq
            exact absurd hd2 hd
          · split
            · rename_i cs2 heq
              obtain ⟨hd2, -⟩ := List.cons.injEq .. ▸ heq
              exact absurd hd2 hd
            · simp
  · simp only [if_neg hsign] at hne ⊢
    cases hdw : (c :: cs).dropWhile (isIn · [charNumeric]) with
    | nil =>
        rw [hdw] at hne
        simp at hne
    | cons d ds2 =>
        obtain ⟨hdmid, htmid⟩ :=
          dropWhile_append_mid (isIn · [charNumeric]) (c :: cs) d ds2 w hdw
        have hdmid2 : (c :: (cs ++ w)).dropWhile (isIn · [charNumeric]) =
            d :: (ds2 ++ w) := by
          rw [← List.cons_append]
          exact hdmid
        have htmid2 : (c :: (cs ++ w)).takeWhile (isIn · [charNumeric]) =
            (c :: cs).takeWhile (isIn · [charNumeric]) := by
          rw [← List.cons_append]
          exact htmid
        rw [hdmid2, htmid2]
        rw [hdw] at hne
        by_cases hd : d = '.'
        · subst hd
          cases hdw2 : ds2.dropWhile (isIn · [charNumeric]) with
          | nil =>
              simp [hdw2] at hne
          | cons t T =>
              obtain ⟨hdmid3, htmid3⟩ :=
                dropWhile_append_mid (isIn · [charNumeric]) ds2 t T w hdw2
              simp [hdmid3, htmid3, hdw2]
        · split
          · rename_i cs2 heq
            obtain ⟨hd2, -⟩ := List.cons.injEq .. ▸ heq
            exact absurd hd2 hd
          · split
            · rename_i cs2 heq
              obtain ⟨hd2, -⟩ := List.cons.injEq .. ▸ heq
              exact absurd hd2 hd
            · simp

theorem ident_not_ws (c : Char) (hc : isIn c [charIdentifier] = true) :
    isIn c [charWhitespace] = false := by
  have hm : c ∈ charIdentifier := by simpa [isIn] using hc
  have hall : charIdentifier.all (fun x => !isIn x [charWhitespace]) = true := by decide
  have h2 := List.all_eq_true.mp hall c hm
  simpa using h2

theorem glob_ch_facts (c : Char) (hc : isIn c [charGlob] = true) :
    isIn c [charWhitespace] = false ∧ isIn c [charIdentifier] = false := by
  have hm : c ∈ charGlob := by simpa [isIn] using hc
  have hall : charGlob.all
      (fun x => !isIn x [charWhitespace] && !isIn x [charIdentifier]) = true := by decide
  have h2 := List.all_eq_true.mp hall c hm
  simp only [Bool.and_eq_true, Bool.not_eq_true'] at h2
  exact h2

theorem angd_not_wsdelim (t : Char)
    (ht : isIn t [charAlpha ++ charNumeric, charGlob, charDot] = true) :
    isIn t [charWhitespace, charDelim] = false := by
  have hm0 : t ∈ charAlpha ++ charNumeric ∨ t ∈ charGlob ∨ t ∈ charDot := by
    simpa [isIn] using ht
  have hm : t ∈ (charAlpha ++ charNumeric) ++ charGlob ++ charDot := by
    simp only [List.mem_append] at hm0 ⊢
    tauto
  have hall : ((charAlpha ++ charNumeric) ++ charGlob ++ charDot).all
      (fun x => !isIn x [charWhitespace, charDelim]) = true := by decide
  have h2 := List.all_eq_true.mp hall t hm
  simpa using h2

theorem scanNumber_metric (c : Char) (cs w : Str) (t : Char) (T : Str)
    (hT : (numParts (c :: cs)).2 = t :: T)
    (ht : isIn t [charAlpha ++ charNumeric, charGlob, charDot] = true)
    (hmet : metOK (t :: T) = true)
    (hw : boundaryB w = true) :
    scanNumber (c :: (cs ++ w)) = .ok (.metric (c :: cs), w) := by
  have hne : (numParts (c :: cs)).2 ≠ [] := by rw [hT]; simp
  have hstop := numParts_stop c cs w hne
  have hcons : (c :: cs) ++ w = c :: (cs ++ w) := by simp
  rw [scanNumber]
  rw [← hcons, hstop]
  rw [hT]
  have hwsd := angd_not_wsdelim t ht
  rw [scanNumberTail.eq_def]
  simp only [List.cons_append]
  rw [if_neg (by rw [hwsd]; simp), if_pos ht]
  have h0 := scanMetric_full (t :: T).length (t :: T) le_rfl hmet
    (numParts (c :: cs)).1 w hw
  simp only [List.cons_append] at h0
  rw [h0]
  have hsplit := numParts_split (c :: cs)
  rw [hT] at hsplit
  rw [hsplit]

theorem lex_metric_step (m w : Str) (hm : goodMetric m = true)
    (hw : boundaryB w = true) :
    lexAll (m ++ w) = (lexAll w).map (Tok.metric m :: ·) := by
  match m, hm with
  | c :: cs, hm =>
    simp only [goodMetric] at hm
    by_cases hnum : isIn c [charNumeric, "+-".toList] = true
    · rw [if_pos hnum] at hm
      cases hT : (numParts (c :: cs)).2 with
      | nil =>
          rw [hT] at hm
          exact absurd hm (by simp)
      | cons t T =>
          rw [hT] at hm
          simp only [Bool.and_eq_true] at hm
          obtain ⟨ht, hmet⟩ := hm
          have hscan := scanNumber_metric c cs w t T hT ht hmet hw
          simp only [List.cons_append]
          exact lexAll_number_ok c (cs ++ w) (.metric (c :: cs)) w hnum hscan
    · rw [if_neg hnum] at hm
      have hnum2 : isIn c [charNumeric, "+-".toList] = false := by
        simpa using hnum
      by_cases hglob : isIn c [charGlob] = true
      · rw [if_pos hglob] at hm
        obtain ⟨hws, hid⟩ := glob_ch_facts c hglob
        have h0 := scanMetric_full (c :: cs).length (c :: cs) le_rfl hm [] w hw
        have hscan : scanMetric [] (c :: (cs ++ w)) = .ok (.metric (c :: cs), w) := by
          simpa using h0
        simp only [List.cons_append]
        exact lexAll_glob_ok c (cs ++ w) (.metric (c :: cs)) w hnum2 hws hid hglob hscan
      · rw [if_neg hglob] at hm
        by_cases hid : isIn c [charIdentifier] = true
        · rw [if_pos hid] at hm
          have hws := ident_not_ws c hid
          cases hD : (c :: cs).dropWhile (isIn · [charIdentifier]) with
          | nil =>
              rw [hD] at hm
              exact absurd hm (by simp)
          | cons g B =>
              rw [hD] at hm
              simp only [Bool.and_eq_true] at hm
              obtain ⟨hg, hmetB⟩ := hm
              have hA : ∀ x ∈ (c :: cs).takeWhile (isIn · [charIdentifier]),
                  isIn x [charIdentifier] = true := by
                intro x hx
                exact mem_takeWhile_pred (isIn · [charIdentifier]) (c :: cs) x hx
              have hsplitCS : (c :: cs).takeWhile (isIn · [charIdentifier]) ++
                  g :: B = c :: cs := by
                have h0 := List.takeWhile_append_dropWhile (isIn · [charIdentifier]) (c :: cs)
                rw [hD] at h0
                exact h0
              have hscan := scanName_metric ((c :: cs).takeWhile (isIn · [charIdentifier]))
                g B w hA hg hmetB hw
              rw [hsplitCS] at hscan
              have heq : (c :: cs).takeWhile (isIn · [charIdentifier]) ++ g :: (B ++ w) =
                  c :: (cs ++ w) := by
                conv_rhs => rw [← List.cons_append, ← hsplitCS]
                simp
              rw [heq] at hscan
              simp only [List.cons_append]
              exact lexAll_ident_ok c (cs ++ w) (.metric (c :: cs)) w hnum2 hws hid hscan
        · rw [if_neg hid] at hm
          exact absurd hm (by simp)

theorem lex_word_step (n w : Str) (hn : goodWord n = true) :
    lexAll (n ++ '(' :: w) = (lexAll ('(' :: w)).map (Tok.word n :: ·) := by
  match n, hn with
  | c :: cs, hn =>
    simp only [goodWord, Bool.and_eq_true] at hn
    obtain ⟨hall, hai⟩ := hn
    obtain ⟨hnum, hws, hident⟩ := alpha_facts c hai
    have hscan := scanName_word (c :: cs) '(' w (List.all_eq_true.mp hall)
      (by decide) (by decide)
    simp only [List.cons_append] at hscan
    simp only [List.cons_append]
    exact lexAll_ident_ok c (cs ++ '(' :: w) (.word (c :: cs)) ('(' :: w)
      hnum hws hident hscan

theorem lex_value_step (v : Str) (b : Char) (bs : Str) (hv : goodValue v = true)
    (hb : isIn b [charDelim] = true) :
    lexAll (v ++ b :: bs) = (lexAll (b :: bs)).map (valueTok v :: ·) := by
  rcases Bool.or_eq_true .. ▸ hv with hs | hn
  · match v, hs with
    | q :: body, hs =>
      simp only [goodString, Bool.and_eq_true, decide_eq_true_eq] at hs
      obtain ⟨hq, hgc⟩ := hs
      obtain ⟨h1, h2, h3, h4, h5⟩ := quote_facts q hq
      have hscan := scanQuote_clean q body (b :: bs) hgc
      simp only [List.cons_append] at hscan
      simp only [List.cons_append]
      have hvt : valueTok (q :: body) = .str (q :: body) := by
        simp only [valueTok]
        rw [if_pos hq]
      rw [hvt]
      exact lexAll_quote_ok q (body ++ b :: bs) (.str (q :: body)) (b :: bs)
        h1 h2 h3 h4 h5 hq hscan
  · match v, hn with
    | c :: cs, hn =>
      have hc : isIn c [charNumeric, "+-".toList] = true := by
        simp only [goodNumber, Bool.and_eq_true] at hn
        exact hn.1
      have hscan := scanNumber_clean c cs b bs hn hb
      simp only [List.cons_append] at hscan
      simp only [List.cons_append]
      have hvt : valueTok (c :: cs) = .number (c :: cs) := by
        simp only [valueTok]
        rw [if_neg (by rw [numpm_not_quote c hc]; simp)]
      rw [hvt]
      exact lexAll_number_ok c (cs ++ b :: bs) (.number (c :: cs)) (b :: bs) hc hscan

mutual
theorem lexExpr : ∀ (e : Expr) (d : Nat) (w : Str),
    wfExprB false e = true →
    d + exprHeight e ≤ 200 →
    boundaryB w = true →
    (w = [] → isValue e = false) →
    lexAll (marshalExpr e d ++ w) = (lexAll w).map (tokensOfExpr e ++ ·)
  | e, d, w, hwf, hb, hbd, hnv => by
    have hd : ¬ d > 200 := by omega
    match e with
    | .metric m =>
        rw [marshalExpr.eq_def]
        simp only [if_neg hd]
        rw [lex_metric_step m w (by simpa [wfExprB] using hwf) hbd]
        rfl
    | .value v =>
        rw [marshalExpr.eq_def]
        simp only [if_neg hd]
        match w, hbd with
        | [], _ => exact absurd (hnv rfl) (by simp [isValue])
        | b :: bs, hbd =>
            simp only [boundaryB] at hbd
            rw [lex_value_step v b bs (by simpa [wfExprB] using hwf) hbd]
            rfl
    | .query e2 => exact absurd hwf (by simp [wfExprB])
    | .func n args =>
        rw [marshalExpr.eq_def]
        simp only [if_neg hd]
        simp only [wfExprB, Bool.and_eq_true] at hwf
        obtain ⟨hgw, hwfargs⟩ := hwf
        have hbargs : d + 1 + argsHeight args ≤ 200 := by
          simp only [exprHeight] at hb
          omega
        simp only [List.append_assoc, List.cons_append, List.singleton_append,
          List.nil_append]
        rw [lex_word_step n (marshalArgs args (d + 1) ++ ')' :: w) hgw]
        rw [lexAll_delim '(' (marshalArgs args (d + 1) ++ ')' :: w) (by decide)]
        by_cases hargs : args = []
        · subst hargs
          simp only [marshalArgs, List.nil_append]
          rw [lexAll_delim ')' w (by decide)]
          cases hlw : lexAll w <;>
            simp [tokensOfExpr, tokensOfArgs, Except.map,
              show delimTok '(' = Tok.lparen from rfl,
              show delimTok ')' = Tok.rparen from rfl]
        · rw [lexArgs args (d + 1) (')' :: w) hwfargs hbargs ⟨')', w, rfl, by decide⟩]
          rw [lexAll_delim ')' w (by decide)]
          cases hlw : lexAll w <;>
            simp [tokensOfExpr, Except.map,
              show delimTok '(' = Tok.lparen from rfl,
              show delimTok ')' = Tok.rparen from rfl]

theorem lexArgs : ∀ (args : List Expr) (d : Nat) (w : Str),
    wfArgsB args = true →
    d + argsHeight args ≤ 200 →
    (∃ b bs, w = b :: bs ∧ isIn b [charDelim] = true) →
    lexAll (marshalArgs args d ++ w) = (lexAll w).map (tokensOfArgs args ++ ·)
  | [], d, w, hwf, hb, hbd => by
      simp only [marshalArgs, tokensOfArgs, List.nil_append]
      cases lexAll w <;> simp [Except.map]
  | [a], d, w, hwf, hb, hbd => by
      obtain ⟨b, bs, rfl, hdel⟩ := hbd
      simp only [marshalArgs, tokensOfArgs]
      have hwfa : wfExprB false a = true := by simpa [wfArgsB] using hwf
      exact lexExpr a d (b :: bs) hwfa
        (by simpa [argsHeight] using hb)
        (by simp [boundaryB, hdel]) (by simp)
  | a :: b2 :: rest, d, w, hwf, hb, hbd => by
      simp only [wfArgsB, Bool.and_eq_true] at hwf
      obtain ⟨hwfa, hwfb2, hwfrest2⟩ := hwf
      have hbmax : d + max (exprHeight a) (argsHeight (b2 :: rest)) ≤ 200 := by
        simpa [argsHeight] using hb
      have hb1 : d + exprHeight a ≤ 200 :=
        le_trans (Nat.add_le_add_left (le_max_left _ _) d) hbmax
      have hb2 : d + argsHeight (b2 :: rest) ≤ 200 :=
        le_trans (Nat.add_le_add_left (le_max_right _ _) d) hbmax
      simp only [marshalArgs]
      simp only [List.append_assoc, List.cons_append]
      rw [lexExpr a d (',' :: ' ' :: (marshalArgs (b2 :: rest) d ++ w)) hwfa hb1
        (by simp only [boundaryB]; decide) (by simp)]
      rw [lexAll_delim ',' (' ' :: (marshalArgs (b2 :: rest) d ++ w)) (by decide)]
      rw [lexAll_ws_space (marshalArgs (b2 :: rest) d ++ w)]
      rw [lexArgs (b2 :: rest) d w (by simp [wfArgsB, hwfb2, hwfrest2]) hb2 hbd]
      cases hlw : lexAll w <;>
        simp [tokensOfArgs, Except.map, show delimTok ',' = Tok.comma from rfl]
end

mutual
theorem parseTok : ∀ (e : Expr) (frames : List (Str × List Expr)) (aRP : Bool)
    (rest : List Tok),
    wfExprB false e = true →
    (frames = [] → isValue e = false) →
    parseLoop frames (.expectExpr aRP) (tokensOfExpr e ++ rest) =
      parseLoop frames (.haveExpr e) rest
  | e, frames, aRP, rest, hwf, hnv => by
    match e with
    | .metric m =>
        simp only [tokensOfExpr, List.cons_append, List.nil_append]
        simp only [parseLoop]
    | .value v =>
        have hv2 : valueTok v = .str v ∨ valueTok v = .number v := by
          match v with
          | [] => exact Or.inr rfl
          | q :: body =>
              simp only [valueTok]
              by_cases hq : isIn q [charQuote] = true
              · rw [if_pos hq]; exact Or.inl rfl
              · rw [if_neg hq]; exact Or.inr rfl
        have hfne : frames.isEmpty = false := by
          cases frames with
          | nil => exact absurd (hnv rfl) (by simp [isValue])
          | cons f fs => rfl
        rcases hv2 with hvt | hvt <;>
        · simp only [tokensOfExpr, hvt, List.cons_append, List.nil_append]
          simp only [parseLoop, hfne]
          simp
    | .query e2 => exact absurd hwf (by simp [wfExprB])
    | .func n args =>
        simp only [wfExprB, Bool.and_eq_true] at hwf
        obtain ⟨-, hwfargs⟩ := hwf
        simp only [tokensOfExpr, List.cons_append, List.append_assoc,
          List.singleton_append, List.nil_append]
        simp only [parseLoop]
        rw [parseArgs args n [] frames rest hwfargs true (fun _ => rfl)]
        simp

theorem parseArgs : ∀ (args : List Expr) (w : Str) (fargs : List Expr)
    (frames : List (Str × List Expr)) (rest : List Tok),
    wfArgsB args = true →
    ∀ (aRP : Bool), (args = [] → aRP = true) →
    parseLoop ((w, fargs) :: frames) (.expectExpr aRP)
        (tokensOfArgs args ++ .rparen :: rest) =
      parseLoop frames (.haveExpr (.func w (fargs ++ args))) rest
  | [], w, fargs, frames, rest, hwf, aRP, haRP => by
      have : aRP = true := haRP rfl
      subst this
      simp only [tokensOfArgs, List.nil_append]
      simp only [parseLoop]
      simp
  | [a], w, fargs, frames, rest, hwf, aRP, haRP => by
      have hwfa : wfExprB false a = true := by simpa [wfArgsB] using hwf
      simp only [tokensOfArgs]
      rw [parseTok a ((w, fargs) :: frames) aRP (.rparen :: rest) hwfa (by simp)]
      simp only [parseLoop]
  | a :: b2 :: rest2, w, fargs, frames, rest, hwf, aRP, haRP => by
      simp only [wfArgsB, Bool.and_eq_true] at hwf
      obtain ⟨hwfa, hwfb2, hwfrest2⟩ := hwf
      simp only [tokensOfArgs, List.append_assoc, List.cons_append]
      rw [parseTok a ((w, fargs) :: frames) aRP
        (.comma :: (tokensOfArgs (b2 :: rest2) ++ .rparen :: rest)) hwfa (by simp)]
      simp only [parseLoop]
      rw [parseArgs (b2 :: rest2) w (fargs ++ [a]) frames rest
        (by simp [wfArgsB, hwfb2, hwfrest2]) false (by simp)]
      simp
end

theorem wf_top_imp (e : Expr) (h : wfExprB true e = true) :
    wfExprB false e = true ∧ isValue e = false := by
  match e with
  | .metric m => exact ⟨by simpa [wfExprB] using h, rfl⟩
  | .value v => exact absurd h (by simp [wfExprB])
  | .func n args => exact ⟨by simpa [wfExprB] using h, rfl⟩
  | .query e2 => exact absurd h (by simp [wfExprB])

theorem goMatch_star (name : Str) (h : '/' ∉ name) :
    goMatch ['*'] name = some true := by
  rw [goMatch.eq_def]
  dsimp only
  rw [if_pos ⟨(by decide : (scanChunk ['*']).1 = true),
    (by decide : (scanChunk ['*']).2.1 = [])⟩]
  have hc : name.contains '/' = false := by
    simpa using h
  rw [hc]
  rfl

/-! ## Claim theorems -/

/-- C10: a query metric with no dot splits into `(whole, "")`, the
backend prefix-stripping writes the empty rest back through the handle,
and the rewritten single-metric target serialises to the empty string:
the metric is lost rather than kept or rejected. -/
theorem claim_c10_dotless_metric_lost (m : Str) (h : '.' ∉ m) :
    (msplit m).2 = [] ∧
    stripPrefixQ ⟨.metric m⟩ = ⟨.metric []⟩ ∧
    (stripPrefixQ ⟨.metric m⟩).render = [] := by
  have hs := msplit_nodot m h
  refine ⟨by rw [hs], ?_, ?_⟩
  · simp only [stripPrefixQ, stripExpr, hs]
    rfl
  · simp only [stripPrefixQ, stripExpr, hs]
    rfl

/-- Witness for C10 at the dotless metric `cpu`. -/
theorem claim_c10_witness :
    ('.' ∉ "cpu".toList) ∧
    ((msplit "cpu".toList).2 = [] ∧
      stripPrefixQ ⟨.metric "cpu".toList⟩ = ⟨.metric []⟩ ∧
      (stripPrefixQ ⟨.metric "cpu".toList⟩).render = []) :=
  ⟨by decide, claim_c10_dotless_metric_lost "cpu".toList (by decide)⟩

/-- C1: for a backend named `B` (a dot-free name) and the `i`-th metric
handle of a parsed query holding `B ++ "." ++ rest`, the prefix strip
rewrites that handle to `rest` in the outgoing query, and the merger's
path rewrite restores `B ++ "."` in front of any returned path; in
particular a backend echo of `rest` is restored to the original metric. -/
theorem claim_c1_prefix_inversion (B rest : Str) (q : Query) (i : Nat)
    (hB : '.' ∉ B)
    (hm : q.metrics.get? i = some (B ++ '.' :: rest)) :
    (stripPrefixQ q).metrics.get? i = some rest ∧
    (∀ node : MetricNode, (prependNode B node).path = B ++ '.' :: node.path) ∧
    (∀ node : MetricNode, node.path = rest →
      (prependNode B node).path = B ++ '.' :: rest) := by
  refine ⟨?_, ?_, ?_⟩
  · rw [metrics_stripPrefixQ, List.get?_map, hm]
    simp [msplit_dot_split B rest hB]
  · intro node
    simp [prependNode]
  · intro node hpath
    simp [prependNode, hpath]

/-- Witness for C1 at backend `west` and the query `west.servers.cpu`. -/
theorem claim_c1_witness :
    ('.' ∉ "west".toList) ∧
    (⟨Expr.metric "west.servers.cpu".toList⟩ : Query).metrics.get? 0 =
      some ("west".toList ++ '.' :: "servers.cpu".toList) ∧
    ((stripPrefixQ ⟨.metric "west.servers.cpu".toList⟩).metrics.get? 0 =
        some "servers.cpu".toList ∧
      (∀ node : MetricNode,
        (prependNode "west".toList node).path = "west".toList ++ '.' :: node.path) ∧
      (∀ node : MetricNode, node.path = "servers.cpu".toList →
        (prependNode "west".toList node).path =
          "west".toList ++ '.' :: "servers.cpu".toList)) :=
  ⟨by decide, by decide,
    claim_c1_prefix_inversion "west".toList "servers.cpu".toList
      ⟨.metric "west.servers.cpu".toList⟩ 0 (by decide) (by decide)⟩

/-- C3 (counterexample): for the single query with metrics `a.x` and
`b.y` (two different prefixes) the routing loop does warn, but it keeps
the FIRST prefix `a` — not the last-seen prefix `b` — and leaves the
mismatching metric unstripped. -/
theorem claim_c3_counterexample :
    renderRoute ["a.x".toList, "b.y".toList] =
      ("a".toList, ["x".toList, "b.y".toList], true) ∧
    ("a".toList : Str) ≠ "b".toList := by decide

/-- C3 (corrected): when a query's metric handles carry prefix `p` up to
the first handle `m` whose prefix differs, the loop warns (`true` flag)
and breaks: it keeps the first prefix `p`, and neither `m` nor anything
after it is prefix-stripped. -/
theorem claim_c3_first_prefix_wins (p m0 m : Str) (ms1 rest : List Str)
    (hp : p ≠ [])
    (h0 : (msplit m0).1 = p)
    (h1 : ∀ x ∈ ms1, (msplit x).1 = p)
    (hm : (msplit m).1 ≠ p) :
    renderRoute (m0 :: ms1 ++ m :: rest) =
      (p, (msplit m0).2 :: (ms1.map fun x => (msplit x).2) ++ m :: rest, true) := by
  simp only [renderRoute, renderRouteLoop, h0]
  rw [if_neg (by simp)]
  simp only [List.append_eq]
  rw [renderRouteLoop_same p ms1 (m :: rest) h1,
    renderRouteLoop_break p m rest hp hm]
  simp

/-- Witness for C3 at the query whose metrics are
`srv1.cpu, srv1.mem, srv2.cpu`. -/
theorem claim_c3_witness :
    ("srv1".toList : Str) ≠ [] ∧
    (msplit "srv1.cpu".toList).1 = "srv1".toList ∧
    (∀ x ∈ ["srv1.mem".toList], (msplit x).1 = "srv1".toList) ∧
    (msplit "srv2.cpu".toList).1 ≠ "srv1".toList ∧
    renderRoute ["srv1.cpu".toList, "srv1.mem".toList, "srv2.cpu".toList] =
      ("srv1".toList,
       (msplit "srv1.cpu".toList).2 ::
         (["srv1.mem".toList].map fun x => (msplit x).2) ++ ["srv2.cpu".toList],
       true) :=
  ⟨by decide, by decide, by decide, by decide,
    claim_c3_first_prefix_wins "srv1".toList "srv1.cpu".toList "srv2.cpu".toList
      ["srv1.mem".toList] [] (by decide) (by decide) (by decide) (by decide)⟩

/-- C5 (counterexample): both backends fail (the first with a 500
response, the second with a transport error and no response), so an HTTP
response object was produced — yet the handler answers 503, because only
the LAST channel item's response is considered for forwarding. -/
theorem claim_c5_counterexample :
    (([⟨false, ['a'], some ⟨500, none⟩⟩, ⟨true, ['b'], none⟩] :
        List (RespItem MetricNode)).any fun it => it.resp.isSome) = true ∧
    mergeOutcome prependNode
        [⟨false, ['a'], some ⟨500, none⟩⟩, ⟨true, ['b'], none⟩] ≠
      MergeOutcome.forward ⟨500, none⟩ ∧
    mergeOutcome prependNode
        [⟨false, ['a'], some ⟨500, none⟩⟩, ⟨true, ['b'], none⟩] =
      MergeOutcome.unavailable := by decide

/-- C5 (corrected): when every channel item fails the merge filter, the
handler forwards the response carried by the LAST channel item if that
item has one, and answers 503 otherwise — responses of earlier items are
never forwarded. -/
theorem claim_c5_last_item_decides {α : Type} (prepend : Str → α → α)
    (items : List (RespItem α))
    (hfail : ∀ it ∈ items, itemFailed it = true) :
    mergeOutcome prepend items =
      match items.getLast? with
      | some it =>
          match it.resp with
          | some r => MergeOutcome.forward r
          | none => MergeOutcome.unavailable
      | none => MergeOutcome.unavailable := by
  have hz := mergeLoop_fail prepend items hfail
  simp [mergeOutcome, hz]

/-- Witness for C5: two failing items whose last carries a 404 response;
that response is forwarded. -/
theorem claim_c5_witness :
    (∀ it ∈ ([⟨true, ['a'], none⟩, ⟨false, ['b'], some ⟨404, none⟩⟩] :
        List (RespItem RenderTarget)), itemFailed it = true) ∧
    mergeOutcome prependTarget
        [⟨true, ['a'], none⟩, ⟨false, ['b'], some ⟨404, none⟩⟩] =
      MergeOutcome.forward ⟨404, none⟩ :=
  ⟨by decide,
    claim_c5_last_item_decides prependTarget
      [⟨true, ['a'], none⟩, ⟨false, ['b'], some ⟨404, none⟩⟩] (by decide)⟩

set_option maxRecDepth 100000 in
unseal braceExpand in
/-- C6 (counterexample): the three-group pattern
`{0..9}{0..9}{a,b}` expands to 200 metrics — `Metric.Expand` does NOT cap
the number of expansions at 100. -/
theorem claim_c6_counterexample :
    (mexpand
        "\x7b0,1,2,3,4,5,6,7,8,9\x7d\x7b0,1,2,3,4,5,6,7,8,9\x7d\x7ba,b\x7d".toList).length
        = 200 ∧
    ¬ (mexpand
        "\x7b0,1,2,3,4,5,6,7,8,9\x7d\x7b0,1,2,3,4,5,6,7,8,9\x7d\x7ba,b\x7d".toList).length
        ≤ 100 := by
  constructor
  · decide
  · decide

/-- C6 (corrected): what the 100 guard (`maxPatterns`) actually bounds is
the number of brace GROUPS scanned: once `depth` exceeds 100 the
remaining text is appended unexpanded to every accumulator, without
error, leaving the count of expansions unchanged. -/
theorem claim_c6_depth_guard (m : Str) (depth : Nat) (addto : List Str)
    (hm : m ≠ []) (ha : addto ≠ []) (hd : depth > 100) :
    braceExpand m depth addto = addto.map (· ++ m) ∧
    (braceExpand m depth addto).length = addto.length := by
  rw [braceExpand.eq_def]
  simp [hm, ha, hd]

/-- Witness for C6 at depth 101 with a one-entry accumulator. -/
theorem claim_c6_witness :
    (['r'] : Str) ≠ [] ∧ ([['p']] : List Str) ≠ [] ∧ 101 > 100 ∧
    (braceExpand ['r'] 101 [['p']] = [['p']].map (· ++ ['r']) ∧
      (braceExpand ['r'] 101 [['p']]).length = ([['p']] : List Str).length) := by
  exact ⟨by decide, by decide, by decide,
    claim_c6_depth_guard ['r'] 101 [['p']] (by decide) (by decide) (by decide)⟩

unseal lexAll in
/-- C2 (counterexample): the Query holding the bare dot-free metric
`cpu` is a well-formed AST value (the very value `stripPrefix` produces
for a single-component metric), its `String()` is `cpu` — and parsing
that serialisation does not return the Query back: the scanner errors,
because a pure identifier run reaching end of input has no accepting
state. -/
theorem claim_c2_counterexample :
    (Query.mk (.metric "cpu".toList)).render = "cpu".toList ∧
    parse "cpu".toList = .error "unexpected character in word".toList := by
  exact ⟨by decide, by decide⟩

/-- C2 (corrected): the round-trip `parse (render q) = q` holds for the
well-formed queries whose serialisation re-lexes to their own token
stream: metric texts the scanner re-reads as a single METRIC token —
entered through a leading digit or sign (`lexNumber`, whose consumed
number must be continued by an alphanumeric, glob or dot character),
through a leading glob character, or through a leading letter or
underscore (`lexName`, whose identifier run must fall through at a star
or dot), with brace lists and bracket globs closed and the whole text
consumed — function names of identifier characters leading with a
letter or underscore, literals that are exactly one STRING or NUMBER
token, no `query` wrapper nodes, no bare literal at top level, and
nesting below the 200 depth guards.  A bare identifier metric (for
example `cpu`) is well formed for the AST but fails the round trip. -/
theorem claim_c2_roundtrip (q : Query)
    (hwf : wfExprB true q.expr = true)
    (hh : exprHeight q.expr ≤ 199) :
    parse q.render = .ok q := by
  obtain ⟨hwf2, hnv⟩ := wf_top_imp q.expr hwf
  have hrender : q.render = marshalExpr q.expr (0 + 1) := by
    show marshalExpr (.query q.expr) 0 = _
    rw [marshalExpr.eq_def]
    simp
  have hlex0 : lexAll (marshalExpr q.expr (0 + 1) ++ []) =
      (lexAll []).map (tokensOfExpr q.expr ++ ·) :=
    lexExpr q.expr (0 + 1) [] hwf2 (by omega) rfl (fun _ => hnv)
  have hlex : lexAll (marshalExpr q.expr (0 + 1)) = .ok (tokensOfExpr q.expr) := by
    rw [List.append_nil] at hlex0
    rw [hlex0]
    simp [lexAll, Except.map]
  have hp0 := parseTok q.expr [] false [] hwf2 (fun _ => hnv)
  have hparse : parseTokens (tokensOfExpr q.expr) = .ok q.expr := by
    rw [parseTokens]
    rw [← List.append_nil (tokensOfExpr q.expr)]
    rw [hp0]
    rfl
  rw [parse, hrender, hlex]
  simp [hparse, Except.bind, Bind.bind, pure, Except.pure]

set_option maxRecDepth 100000 in
unseal metOK in
/-- Witness for C2 at a `sumSeries` call over the spec's brace-glob
metric, a bracket-and-brace metric, a digit-leading metric, a short
brace-list metric, a plain star-and-dot metric and a NUMBER literal. -/
theorem claim_c2_witness :
    wfExprB true (Expr.func "sumSeries".toList
      [.metric "aws-east*.totals.\x7bqueues,exchanges,\x7d".toList,
       .metric "host.cpu-[0-7].cpu-\x7buser,system\x7d.value".toList,
       .metric "305.m".toList,
       .metric "a.\x7bb,c\x7d".toList,
       .metric "a.b".toList,
       .value "1.5".toList]) = true ∧
    exprHeight (Expr.func "sumSeries".toList
      [.metric "aws-east*.totals.\x7bqueues,exchanges,\x7d".toList,
       .metric "host.cpu-[0-7].cpu-\x7buser,system\x7d.value".toList,
       .metric "305.m".toList,
       .metric "a.\x7bb,c\x7d".toList,
       .metric "a.b".toList,
       .value "1.5".toList]) ≤ 199 ∧
    parse (Query.mk (Expr.func "sumSeries".toList
      [.metric "aws-east*.totals.\x7bqueues,exchanges,\x7d".toList,
       .metric "host.cpu-[0-7].cpu-\x7buser,system\x7d.value".toList,
       .metric "305.m".toList,
       .metric "a.\x7bb,c\x7d".toList,
       .metric "a.b".toList,
       .value "1.5".toList])).render =
      .ok ⟨Expr.func "sumSeries".toList
      [.metric "aws-east*.totals.\x7bqueues,exchanges,\x7d".toList,
       .metric "host.cpu-[0-7].cpu-\x7buser,system\x7d.value".toList,
       .metric "305.m".toList,
       .metric "a.\x7bb,c\x7d".toList,
       .metric "a.b".toList,
       .value "1.5".toList]⟩ :=
  ⟨by decide, by decide,
    claim_c2_roundtrip
      ⟨.func "sumSeries".toList
        [.metric "aws-east*.totals.\x7bqueues,exchanges,\x7d".toList,
         .metric "host.cpu-[0-7].cpu-\x7buser,system\x7d.value".toList,
         .metric "305.m".toList,
         .metric "a.\x7bb,c\x7d".toList,
         .metric "a.b".toList,
         .value "1.5".toList]⟩
      (by decide) (by decide)⟩

set_option maxRecDepth 100000 in
/-- C7 (counterexample): in a query of 200 nested function calls the
innermost metric still gets a handle (the walk guard allows depth 200),
and assigning through it does change the AST — but `String()` gives up
one level earlier (its depth count starts at 1), so the output does not
change: the mutation is not observable through `String()`. -/
theorem claim_c7_counterexample :
    (Query.mk (nestFunc 200)).metrics = [['m']] ∧
    (Query.mk (nestFunc 200)).setMetric 0 ['x'] ≠ Query.mk (nestFunc 200) ∧
    ((Query.mk (nestFunc 200)).setMetric 0 ['x']).render =
      (Query.mk (nestFunc 200)).render := by
  exact ⟨by decide, by decide, by decide⟩

/-- C7 (corrected): for queries nested less deeply than the depth guards
(height at most 199), `Metrics()` is exactly the depth-first sequence of
Metric nodes, and assigning `v` through the `i`-th handle is observable
in `String()`: the serialisation is `pre ++ m ++ suf` before and
`pre ++ v ++ suf` after. -/
theorem claim_c7_mutable_handles (q : Query) (i : Nat) (m v : Str)
    (hh : exprHeight q.expr ≤ 199)
    (hm : q.metrics.get? i = some m) :
    q.metrics = dfsMetrics q.expr ∧
    ∃ pre suf,
      q.render = pre ++ m ++ suf ∧
      (q.setMetric i v).render = pre ++ v ++ suf := by
  constructor
  · exact metricsExpr_dfs q.expr 0 (by omega)
  · obtain ⟨pre, suf, h1, h2, h3⟩ := render_set_expr q.expr 0 i m v hm (by omega)
    refine ⟨pre, suf, ?_, ?_⟩
    · show marshalExpr (.query q.expr) 0 = pre ++ m ++ suf
      rw [marshalExpr.eq_def]
      simp only [if_neg (by omega : ¬ (0 : Nat) > 200)]
      exact h1
    · show marshalExpr (.query (setExpr q.expr 0 (some i) v).1) 0 = pre ++ v ++ suf
      rw [marshalExpr.eq_def]
      simp only [if_neg (by omega : ¬ (0 : Nat) > 200)]
      exact h2

/-- Witness for C7 at `f(a.b, c.d)`, assigning `x` through handle 1. -/
theorem claim_c7_witness :
    exprHeight (Expr.func ['f'] [.metric "a.b".toList, .metric "c.d".toList]) ≤ 199 ∧
    (Query.mk (.func ['f'] [.metric "a.b".toList, .metric "c.d".toList])).metrics.get? 1 =
      some "c.d".toList ∧
    ((Query.mk (.func ['f'] [.metric "a.b".toList, .metric "c.d".toList])).metrics =
      dfsMetrics (Expr.func ['f'] [.metric "a.b".toList, .metric "c.d".toList]) ∧
     ∃ pre suf,
       (Query.mk (.func ['f'] [.metric "a.b".toList, .metric "c.d".toList])).render =
         pre ++ "c.d".toList ++ suf ∧
       ((Query.mk (.func ['f'] [.metric "a.b".toList,
           .metric "c.d".toList])).setMetric 1 "x".toList).render =
         pre ++ "x".toList ++ suf) :=
  ⟨by decide, by decide,
    claim_c7_mutable_handles
      ⟨.func ['f'] [.metric "a.b".toList, .metric "c.d".toList]⟩ 1
      "c.d".toList "x".toList (by decide) (by decide)⟩

unseal cleanLoop in
/-- C8 (counterexample): `CopyRequest` is NOT a deep copy — after the
call the original request's URL has the backend's host, path and query,
because `*cp = *req` copies the `*url.URL` pointer and the rewrites go
through it. -/
theorem claim_c8_counterexample :
    (Target.copyRequest
        ⟨"b".toList, ⟨"http".toList, "backend".toList, "/api".toList, []⟩⟩
        ⟨⟨"http".toList, "client".toList, "/render".toList, "q=1".toList⟩⟩).2 ≠
      ⟨⟨"http".toList, "client".toList, "/render".toList, "q=1".toList⟩⟩ := by decide

/-- C8 (corrected): the copy's URL carries the backend's scheme and host,
the backend path joined with the request path, and the raw queries joined
by `&` exactly when both are non-empty — but the original request is NOT
left unchanged: after the call it holds the very same rewritten URL as
the copy. -/
theorem claim_c8_shallow_copy (tgt : Target) (req : Request) :
    (Target.copyRequest tgt req).1.url.scheme = tgt.url.scheme ∧
    (Target.copyRequest tgt req).1.url.host = tgt.url.host ∧
    (Target.copyRequest tgt req).1.url.path = pathJoin tgt.url.path req.url.path ∧
    (Target.copyRequest tgt req).1.url.rawQuery =
      (if tgt.url.rawQuery = [] ∨ req.url.rawQuery = []
       then tgt.url.rawQuery ++ req.url.rawQuery
       else tgt.url.rawQuery ++ '&' :: req.url.rawQuery) ∧
    (Target.copyRequest tgt req).2 = (Target.copyRequest tgt req).1 := by
  refine ⟨rfl, rfl, rfl, rfl, rfl⟩

unseal lexAll in
/-- C4 (counterexample): the empty `query=` form value does not
enumerate the backends — it fails to parse and the handler answers 400. -/
theorem claim_c4_counterexample :
    metricsHandler "GET".toList [] ["dev".toList, "prod".toList] = .httpErr 400 ∧
    metricsHandler "GET".toList [] ["dev".toList, "prod".toList] ≠
      .toplevelNodes
        [⟨0, "dev".toList, "dev.".toList⟩, ⟨0, "prod".toList, "prod.".toList⟩] := by
  exact ⟨by decide, by decide⟩

unseal lexAll scanMetric braceExpand in
/-- C4 (corrected): `query=*` does enumerate: for any non-empty server
set (server names are slash-free), the handler returns one non-leaf node
`{0, name, name + "."}` per backend with no dispatch, so no backend call
is made. -/
theorem claim_c4_star_query (servers : List Str) (hne : servers ≠ [])
    (hs : ∀ s ∈ servers, '/' ∉ s) :
    metricsHandler "GET".toList "*".toList servers =
      .toplevelNodes (servers.map fun srv =>
        { leaf := 0, name := srv, path := srv ++ ['.'] }) := by
  have hparse : parse "*".toList = .ok ⟨.metric ['*']⟩ := by decide
  have hmex : mexpand ['*'] = [['*']] := by decide
  have hmm : ∀ s ∈ servers,
      ((Query.mk (.metric ['*'])).metrics.any fun metric =>
        mMatch (msplit metric).1 s) = true := by
    intro s hsm
    have hmet : (Query.mk (.metric ['*'])).metrics = [['*']] := by decide
    rw [hmet]
    simp only [List.any_cons, List.any_nil, Bool.or_false]
    have hsp : (msplit ['*']).1 = ['*'] := by decide
    rw [hsp]
    simp only [mMatch, hmex, List.any_cons, List.any_nil, Bool.or_false]
    rw [mmatch, pathMatch, goMatch_star s (hs s hsm)]
  have hfilter : matchingServers servers ⟨.metric ['*']⟩ = servers := by
    simp only [matchingServers]
    exact List.filter_eq_self.mpr hmm
  have hinfo : metricsInfo "GET".toList "*".toList servers =
      .route servers true [] := by
    rw [metricsInfo.eq_def]
    rw [if_neg (by simp), hparse]
    dsimp only
    rw [hfilter]
    rw [if_neg (by simpa using fun h => hne (List.length_eq_zero.mp h))]
    have hsp2 : (msplit ['*']).2 = ([] : Str) := by decide
    rw [hsp2]
    simp
  rw [metricsHandler.eq_def, hinfo]
  simp

/-- Witness for C4 at the two backends `dev` and `prod`. -/
theorem claim_c4_witness :
    (["dev".toList, "prod".toList] : List Str) ≠ [] ∧
    (∀ s ∈ [("dev".toList : Str), "prod".toList], '/' ∉ s) ∧
    metricsHandler "GET".toList "*".toList ["dev".toList, "prod".toList] =
      .toplevelNodes (["dev".toList, "prod".toList].map fun srv =>
        { leaf := 0, name := srv, path := srv ++ ['.'] }) :=
  ⟨by decide, by decide,
    claim_c4_star_query ["dev".toList, "prod".toList] (by decide) (by decide)⟩

/-- C9: the dispatcher's channel capacity equals the number of servers,
one worker is launched per server and each sends exactly once; along any
event trace whose sends do not exceed the total send budget, the buffer
never holds more than the capacity, so no send ever blocks — even if the
consumer never receives. -/
theorem claim_c9_no_send_blocks (servers : List Str) (trace : List Bool)
    (hsends : trace.count true ≤
      (proxyMetricsDispatch servers).workers *
        (proxyMetricsDispatch servers).sendsPerWorker) :
    (proxyMetricsDispatch servers).capacity = servers.length ∧
    (proxyMetricsDispatch servers).workers = servers.length ∧
    (proxyMetricsDispatch servers).sendsPerWorker = 1 ∧
    chanBuffered trace ≤ (proxyMetricsDispatch servers).capacity := by
  refine ⟨rfl, rfl, rfl, ?_⟩
  have hbd := chanBuffered_le_count trace 0
  simp only [proxyMetricsDispatch, Nat.mul_one] at hsends ⊢
  simp only [chanBuffered]
  omega

/-- Witness for C9: two servers, both workers send, no receive happens;
the buffer peaks at 2 = capacity. -/
theorem claim_c9_witness :
    ([true, true] : List Bool).count true ≤
      (proxyMetricsDispatch [['a'], ['b']]).workers *
        (proxyMetricsDispatch [['a'], ['b']]).sendsPerWorker ∧
    ((proxyMetricsDispatch [['a'], ['b']]).capacity = 2 ∧
      (proxyMetricsDispatch [['a'], ['b']]).workers = 2 ∧
      (proxyMetricsDispatch [['a'], ['b']]).sendsPerWorker = 1 ∧
      chanBuffered [true, true] ≤ (proxyMetricsDispatch [['a'], ['b']]).capacity) :=
  ⟨by decide, claim_c9_no_send_blocks [['a'], ['b']] [true, true] (by decide)⟩

end Metaphite
